import Mathlib

/-!
Verification of the `calculate-100` expression-search solver.

This file shallowly embeds the repository's expression model (`ast.ts`,
classes `NumberNode`, `BinaryOpNode`, `UnaryOpNode`, `ConcatNode`,
`ParenNode`, `ExpressionNode`) and its search engine (`solver`, class
`Solver` with `solve`, `findCombinationsRecursive`, `checkSolution`,
`evaluateWithCache`, `createProgressReport`, `calculateProgress`,
`calculateETA`).

Modelling conventions:
* JavaScript numbers are modelled by `JSNumber`: an exact rational, or one
  of the non-finite values `NaN`, `Infinity`, `-Infinity`.  Finite
  arithmetic is exact (doubles' rounding and overflow are not modelled);
  the propagation rules for the non-finite values follow the ECMAScript
  specification.
* Rational arithmetic is written with the explicit `mkRat`-based helpers
  `qAdd`, `qSub`, `qMul`, `qDiv`, `qAbs`, `qMin`, `qMax`, `qOfNat`,
  `qOfInt` so that closed runs of the solver evaluate inside the kernel;
  each helper is proved equal to the corresponding standard operation on
  `ℚ` (`qAdd_eq` and friends below), so the theorems can be read over the
  ordinary field structure.
* `Math.sqrt` on a non-square rational and `Math.pow` with a positive base
  and fractional exponent produce irrational reals; they are replaced by
  deterministic rational stand-ins (`Rat.sqrt`, `powFracApprox`).  No
  theorem below depends on the value of either stand-in.
* `Date.now()` is modelled by an oracle `times : ℕ → ℚ` consumed one tick
  per call; cooperative cancellation (`Solver.cancel`) is modelled by an
  optional threshold `cancelAt`: the flag is observed as set once the
  generator has yielded at least `cancelAt` events, which is the only
  point at which the single-threaded consumer can run.
* Digit sequences fed to the solver are lists of natural numbers, per the
  engine's contract (ordered sequence of small non-negative integers).
-/

namespace Sum100

/-! ## Kernel-computable rational arithmetic -/

/-- `a + b` on `ℚ`, written through `mkRat` (see `qAdd_eq`). -/
def qAdd (a b : ℚ) : ℚ := mkRat (a.num * b.den + b.num * a.den) (a.den * b.den)

/-- `-a` on `ℚ` (see `qNeg_eq`). -/
def qNeg (a : ℚ) : ℚ := mkRat (-a.num) a.den

/-- `a - b` on `ℚ` (see `qSub_eq`). -/
def qSub (a b : ℚ) : ℚ := qAdd a (qNeg b)

/-- `a * b` on `ℚ` (see `qMul_eq`). -/
def qMul (a b : ℚ) : ℚ := mkRat (a.num * b.num) (a.den * b.den)

/-- `a⁻¹` on `ℚ` (see `qInv_eq`). -/
def qInv (a : ℚ) : ℚ :=
  if 0 ≤ a.num then mkRat a.den a.num.toNat
  else qNeg (mkRat a.den (-a.num).toNat)

/-- `a / b` on `ℚ` (see `qDiv_eq`). -/
def qDiv (a b : ℚ) : ℚ := qMul a (qInv b)

/-- `|a|` on `ℚ`, i.e. JavaScript `Math.abs` (see `qAbs_eq`). -/
def qAbs (a : ℚ) : ℚ := if a.num < 0 then qNeg a else a

/-- JavaScript `Math.min` on two (finite) numbers (see `qMin_eq`). -/
def qMin (a b : ℚ) : ℚ := if a ≤ b then a else b

/-- JavaScript `Math.max` on two (finite) numbers (see `qMax_eq`). -/
def qMax (a b : ℚ) : ℚ := if a ≤ b then b else a

/-- The canonical embedding `ℕ → ℚ` (see `qOfNat_eq`). -/
def qOfNat (n : ℕ) : ℚ := mkRat n 1

/-- The canonical embedding `ℤ → ℚ` (see `qOfInt_eq`). -/
def qOfInt (i : ℤ) : ℚ := mkRat i 1

/-- The literal `1e-9` (see `eps9_eq`). -/
def eps9 : ℚ := mkRat 1 1000000000

/-- The literal `1e-10` (see `eps10_eq`). -/
def eps10 : ℚ := mkRat 1 10000000000

/-- The literal `1e-12` (see `eps12_eq`). -/
def eps12 : ℚ := mkRat 1 1000000000000

/-! ## JavaScript numbers -/

/-- A JavaScript `number` as the expression evaluator observes it:
an exact rational, or `NaN`, or `±Infinity`. -/
inductive JSNumber where
  | num (q : ℚ)
  | nan
  | posInf
  | negInf
deriving DecidableEq, Repr

/-- `isFinite` / `!isNaN` combined: true exactly on finite values. -/
def jsIsFinite : JSNumber → Bool
  | .num _ => true
  | _ => false

/-- JavaScript unary minus. -/
def jsNeg : JSNumber → JSNumber
  | .num q => .num (qNeg q)
  | .nan => .nan
  | .posInf => .negInf
  | .negInf => .posInf

/-- JavaScript `+` on numbers. -/
def jsAdd : JSNumber → JSNumber → JSNumber
  | .num a, .num b => .num (qAdd a b)
  | .nan, _ => .nan
  | _, .nan => .nan
  | .posInf, .negInf => .nan
  | .negInf, .posInf => .nan
  | .posInf, _ => .posInf
  | _, .posInf => .posInf
  | .negInf, _ => .negInf
  | _, .negInf => .negInf

/-- JavaScript `-` on numbers (`a - b` behaves as `a + (-b)`). -/
def jsSub (a b : JSNumber) : JSNumber := jsAdd a (jsNeg b)

/-- JavaScript `*` on numbers. -/
def jsMul : JSNumber → JSNumber → JSNumber
  | .num a, .num b => .num (qMul a b)
  | .nan, _ => .nan
  | _, .nan => .nan
  | .posInf, .posInf => .posInf
  | .posInf, .negInf => .negInf
  | .negInf, .posInf => .negInf
  | .negInf, .negInf => .posInf
  | .posInf, .num b => if b = 0 then .nan else if 0 < b then .posInf else .negInf
  | .num a, .posInf => if a = 0 then .nan else if 0 < a then .posInf else .negInf
  | .negInf, .num b => if b = 0 then .nan else if 0 < b then .negInf else .posInf
  | .num a, .negInf => if a = 0 then .nan else if 0 < a then .negInf else .posInf

/-- JavaScript `/` on numbers (zero treated as `+0`). -/
def jsDiv : JSNumber → JSNumber → JSNumber
  | .nan, _ => .nan
  | _, .nan => .nan
  | .posInf, .posInf => .nan
  | .posInf, .negInf => .nan
  | .negInf, .posInf => .nan
  | .negInf, .negInf => .nan
  | .posInf, .num b => if 0 ≤ b then .posInf else .negInf
  | .negInf, .num b => if 0 ≤ b then .negInf else .posInf
  | .num _, .posInf => .num 0
  | .num _, .negInf => .num 0
  | .num a, .num b =>
      if b = 0 then (if a = 0 then .nan else if 0 < a then .posInf else .negInf)
      else .num (qDiv a b)

/-- Truncation toward zero of an exact rational (`num.div den` is the
integer quotient rounded toward zero), as JavaScript's remainder uses. -/
def ratTrunc (q : ℚ) : ℤ := q.num.tdiv (q.den : ℤ)

/-- Fractional remainder on exact rationals: `a - b * trunc (a / b)`
(the result has the dividend's sign, like the JS `%`). -/
def ratRem (a b : ℚ) : ℚ := qSub a (qMul b (qOfInt (ratTrunc (qDiv a b))))

/-- JavaScript `%` on numbers. -/
def jsMod : JSNumber → JSNumber → JSNumber
  | .nan, _ => .nan
  | _, .nan => .nan
  | .posInf, _ => .nan
  | .negInf, _ => .nan
  | .num a, .posInf => .num a
  | .num a, .negInf => .num a
  | .num a, .num b => if b = 0 then .nan else .num (ratRem a b)

/-- Stand-in for `Math.pow` with a positive base and a fractional exponent,
whose true value is an irrational real that `ℚ` cannot represent.  No
theorem in this file depends on this value. -/
def powFracApprox (_base _exponent : ℚ) : ℚ := 1

/-- JavaScript `Math.pow`, per the ECMAScript `Number::exponentiate`
specification (signed zeros are collapsed into the single rational `0`). -/
def jsPow (x y : JSNumber) : JSNumber :=
  match x, y with
  | _, .num 0 => .num 1
  | .nan, _ => .nan
  | _, .nan => .nan
  | x, .posInf =>
      match x with
      | .num a => if a = 1 ∨ a = -1 then .nan else if 1 < qAbs a then .posInf else .num 0
      | _ => .posInf
  | x, .negInf =>
      match x with
      | .num a => if a = 1 ∨ a = -1 then .nan else if 1 < qAbs a then .num 0 else .posInf
      | _ => .num 0
  | .posInf, .num b => if 0 < b then .posInf else .num 0
  | .negInf, .num b =>
      if 0 < b then (if b.den = 1 ∧ b.num % 2 ≠ 0 then .negInf else .posInf)
      else .num 0
  | .num a, .num b =>
      if b.den = 1 then
        if a = 0 ∧ b < 0 then .posInf
        else .num (a ^ b.num)
      else
        if a < 0 then .nan
        else if a = 0 then (if 0 < b then .num 0 else .posInf)
        else .num (powFracApprox a b)

/-- JavaScript `<` on numbers (`false` whenever an operand is `NaN`). -/
def jsLt : JSNumber → JSNumber → Bool
  | .nan, _ => false
  | _, .nan => false
  | .num a, .num b => a < b
  | .negInf, .negInf => false
  | .negInf, _ => true
  | _, .negInf => false
  | .posInf, _ => false
  | .num _, .posInf => true

/-- JavaScript `Number.isInteger`. -/
def jsIsInteger : JSNumber → Bool
  | .num q => q.den = 1
  | _ => false

/-- JavaScript `=== 0` (strict equality against the literal `0`). -/
def jsEqZero : JSNumber → Bool
  | .num q => q = 0
  | _ => false

/-! ## The expression model (`ast.ts`) -/

/-- The binary operators of `BinaryOpNode`: `'+' | '-' | '*' | '/' | '%' | '^'`. -/
inductive BinaryOperator where
  | add
  | sub
  | mul
  | div
  | mod
  | pow
deriving DecidableEq, Repr

/-- The unary operators of `UnaryOpNode`: `'!' | '√' | '-'`. -/
inductive UnaryOperator where
  | factorial
  | sqrt
  | neg
deriving DecidableEq, Repr

/-- The AST node classes of `ast.ts` as a closed union:
`NumberNode`, `BinaryOpNode`, `UnaryOpNode`, `ConcatNode`, `ParenNode`. -/
inductive ASTNode where
  | number (value : JSNumber)
  | binaryOp (left : ASTNode) (operator : BinaryOperator) (right : ASTNode)
  | unaryOp (operator : UnaryOperator) (operand : ASTNode)
  | concat (numbers : List ℕ)
  | paren (expression : ASTNode)
deriving DecidableEq, Repr

/-- The typed errors thrown by `evaluate` and `evaluateWithCache`. -/
inductive EvalError where
  | divisionByZero
  | moduloByZero
  | factorialDomain
  | factorialOverflow
  | sqrtDomain
  | invalidResult
deriving DecidableEq, Repr

/-- `UnaryOpNode.factorial`: `n <= 1 ? 1 : n * factorial(n - 1)`,
restricted to the natural arguments it is called with. -/
def factorialFn : ℕ → ℚ
  | 0 => 1
  | n + 1 => qMul (qOfNat (n + 1)) (factorialFn n)

/-- Number of decimal digits `n` contributes to `numbers.join('')`. -/
def decimalLength (n : ℕ) : ℕ := (Nat.toDigits 10 n).length

/-- `parseInt(numbers.join(''))` for a non-empty list of naturals: the
decimal concatenation of the members, read left to right. -/
def concatValue (ns : List ℕ) : ℕ :=
  ns.foldl (fun acc n => acc * 10 ^ decimalLength n + n) 0

/-- `ASTNode.evaluate`: the per-class `evaluate` methods of `ast.ts`.
Thrown errors become `Except.error`. -/
def evaluate : ASTNode → Except EvalError JSNumber
  | .number v => .ok v
  | .binaryOp l op r => do
      let leftVal ← evaluate l
      let rightVal ← evaluate r
      match op with
      | .add => .ok (jsAdd leftVal rightVal)
      | .sub => .ok (jsSub leftVal rightVal)
      | .mul => .ok (jsMul leftVal rightVal)
      | .div =>
          if jsEqZero rightVal then .error .divisionByZero
          else .ok (jsDiv leftVal rightVal)
      | .mod =>
          if jsEqZero rightVal then .error .moduloByZero
          else .ok (jsMod leftVal rightVal)
      | .pow => .ok (jsPow leftVal rightVal)
  | .unaryOp op operand => do
      let val ← evaluate operand
      match op with
      | .factorial =>
          if jsLt val (.num 0) || !jsIsInteger val then .error .factorialDomain
          else if jsLt (.num 170) val then .error .factorialOverflow
          else
            match val with
            | .num q => .ok (.num (factorialFn q.num.toNat))
            | _ => .error .factorialDomain
      | .sqrt =>
          if jsLt val (.num 0) then .error .sqrtDomain
          else
            match val with
            | .num q => .ok (.num (Rat.sqrt q))
            | v => .ok v
      | .neg => .ok (jsNeg val)
  | .concat ns => if ns.isEmpty then .ok .nan else .ok (.num (qOfNat (concatValue ns)))
  | .paren e => evaluate e

/-- Decimal rendering of a rational, as used for string keys.  Solver runs
only ever render integral values (digit literals and integral targets),
where this matches JavaScript number formatting. -/
def ratToString (q : ℚ) : String :=
  if q.den = 1 then toString q.num else toString q.num ++ "/" ++ toString q.den

/-- JavaScript string conversion of a number. -/
def jsNumberToString : JSNumber → String
  | .num q => ratToString q
  | .nan => "NaN"
  | .posInf => "Infinity"
  | .negInf => "-Infinity"

/-- `this.operator` as a string, for `BinaryOpNode.toString`. -/
def BinaryOperator.toText : BinaryOperator → String
  | .add => "+"
  | .sub => "-"
  | .mul => "*"
  | .div => "/"
  | .mod => "%"
  | .pow => "^"

/-- `ASTNode.toString`: the per-class `toString` methods of `ast.ts`
(the canonical text rendering used for caching and deduplication). -/
def ASTNode.render : ASTNode → String
  | .number v => jsNumberToString v
  | .binaryOp l op r =>
      "(" ++ l.render ++ " " ++ op.toText ++ " " ++ r.render ++ ")"
  | .unaryOp .factorial x => x.render ++ "!"
  | .unaryOp .sqrt x => "√" ++ x.render
  | .unaryOp .neg x => "-" ++ x.render
  | .concat ns => String.join (ns.map (fun n => toString n))
  | .paren e => "(" ++ e.render ++ ")"

/-- `ExpressionNode`: a root expression paired with the target. -/
structure ExpressionNode where
  left : ASTNode
  target : ℚ
deriving DecidableEq, Repr

/-- `ExpressionNode.toString`: `` `${this.left.toString()} = ${this.target}` ``. -/
def ExpressionNode.render (e : ExpressionNode) : String :=
  e.left.render ++ " = " ++ ratToString e.target

/-- `ExpressionNode.evaluate` delegates to the root. -/
def ExpressionNode.evaluate (e : ExpressionNode) : Except EvalError JSNumber :=
  Sum100.evaluate e.left

/-- `ExpressionNode.isValid`: true when the root evaluates within `1e-10`
of the target; false (never a throw) on evaluation failure.  A non-finite
value compares `false`, like the JS `Math.abs(NaN) < 1e-10`. -/
def ExpressionNode.isValid (e : ExpressionNode) : Bool :=
  match Sum100.evaluate e.left with
  | .ok (.num q) => qAbs (qSub q e.target) < eps10
  | _ => false

/-! ## The search engine (`solver`, class `Solver`) -/

/-- `SolverConfig` with every optional field resolved to a value, as the
`Solver` constructor does (`Required<SolverConfig>`). -/
structure SolverConfig where
  maxAttempts : ℕ
  timeout : ℚ
  maxFactorialDepth : ℕ
  enableConcatenation : Bool
  enableAddition : Bool
  enableSubtraction : Bool
  enableMultiplication : Bool
  enableDivision : Bool
  enablePower : Bool
  enableFactorial : Bool
  enableSquareRoot : Bool
  enableNegation : Bool
  enableModulo : Bool
  reportInterval : ℚ
  maxDepth : ℕ

/-- The constructor defaults: `maxAttempts 1000000`, `timeout 30000`,
`maxFactorialDepth 2`, every operator family enabled,
`reportInterval 100`, `maxDepth 8`. -/
def defaultConfig : SolverConfig :=
  ⟨1000000, 30000, 2, true, true, true, true, true, true, true, true, true, true, 100, 8⟩

/-- `SolverReport.type`. -/
inductive ReportType where
  | progress
  | solution
  | complete
deriving DecidableEq, Repr

/-- A `SolverReport` event yielded by the generator. -/
structure SolverReport where
  type : ReportType
  attempts : ℕ
  currentExpression : Option ExpressionNode
  eta : ℚ
  progress : ℚ
  duration : ℚ
deriving DecidableEq, Repr

/-- The final `SolutionResult` returned when the generator finishes. -/
structure SolutionResult where
  expression : ExpressionNode
  attempts : ℕ
  duration : ℚ
  found : Bool
deriving DecidableEq, Repr

/-- The external world of one `solve` call: the resolved configuration, the
`Date.now()` oracle (one value per call, in call order), and the moment at
which the consumer requests cancellation, counted in yielded events. -/
structure SolverEnv where
  config : SolverConfig
  times : ℕ → ℚ
  cancelAt : Option ℕ

/-- The mutable `Solver` fields, plus the oracle cursor (`tick`) and the
number of events yielded so far (`yields`). -/
structure SolverState where
  cache : List (String × ℚ)
  startTime : ℚ
  attempts : ℕ
  solutions : List ExpressionNode
  lastReportTime : ℚ
  tick : ℕ
  yields : ℕ

/-- One `Date.now()` call: read the oracle and advance the cursor. -/
def stNow (env : SolverEnv) (st : SolverState) : ℚ × SolverState :=
  (env.times st.tick, { st with tick := st.tick + 1 })

/-- Record one yielded event (a suspension point of the generator). -/
def incYields (st : SolverState) : SolverState :=
  { st with yields := st.yields + 1 }

/-- The `this.cancelled` flag: set once the consumer had `cancelAt` many
suspension points at which to call `cancel()`. -/
def isCancelled (env : SolverEnv) (st : SolverState) : Bool :=
  match env.cancelAt with
  | none => false
  | some k => k ≤ st.yields

/-- `AttemptCache.get`: `Map.get` keyed by canonical rendering. -/
def cacheGet (cache : List (String × ℚ)) (key : String) : Option ℚ :=
  (cache.find? (fun p => p.1 == key)).map (fun p => p.2)

/-- `AttemptCache.set`: clears the map first if it holds more than 100000
entries, then stores the binding. -/
def cacheSet (cache : List (String × ℚ)) (key : String) (value : ℚ) :
    List (String × ℚ) :=
  let cache' := if 100000 < cache.length then [] else cache
  (key, value) :: cache'.filter (fun p => p.1 != key)

/-- `Solver.evaluateWithCache`: look the node's rendering up in the cache;
on a miss evaluate it, throw `invalidResult` on a non-finite value, and
cache the (finite) result. -/
def evaluateWithCache (node : ASTNode) (cache : List (String × ℚ)) :
    Except EvalError ℚ × List (String × ℚ) :=
  let key := node.render
  match cacheGet cache key with
  | some cached => (.ok cached, cache)
  | none =>
      match evaluate node with
      | .error e => (.error e, cache)
      | .ok (.num q) => (.ok q, cacheSet cache key q)
      | .ok _ => (.error .invalidResult, cache)

/-- `Solver.checkSolution`: true when the cached evaluation succeeds within
`1e-9` of the target; evaluation errors yield false. -/
def checkSolution (node : ASTNode) (target : ℚ) (cache : List (String × ℚ)) :
    Bool × List (String × ℚ) :=
  let r := evaluateWithCache node cache
  match r.1 with
  | .ok v => (decide (qAbs (qSub v target) < eps9), r.2)
  | .error _ => (false, r.2)

/-- `Solver.getFactorialDepth`: length of the chain of `'!'` nodes at the
root. -/
def getFactorialDepth : ASTNode → ℕ
  | .unaryOp .factorial x => getFactorialDepth x + 1
  | _ => 0

/-- `Solver.calculateProgress`. -/
def calculateProgress (cfg : SolverConfig) (attempts : ℕ) (elapsed : ℚ) : ℚ :=
  if cfg.maxAttempts = 0 then qMin (qDiv elapsed cfg.timeout) 1
  else qMin (qMin (qDiv (qOfNat attempts) (qOfNat cfg.maxAttempts))
    (qDiv elapsed cfg.timeout)) 1

/-- `Solver.calculateETA`. -/
def calculateETA (cfg : SolverConfig) (attempts : ℕ) (elapsed : ℚ) : ℚ :=
  let progress := calculateProgress cfg attempts elapsed
  if progress < eps9 then cfg.timeout
  else qMax 0 (qSub (qDiv elapsed progress) elapsed)

/-- The record literal built by `Solver.createProgressReport`. -/
def progressReportOf (cfg : SolverConfig) (attempts : ℕ) (duration : ℚ) :
    SolverReport :=
  ⟨.progress, attempts, none, calculateETA cfg attempts duration,
    calculateProgress cfg attempts duration, duration⟩

/-- `Solver.createProgressReport`: reads `Date.now()` once for the
duration. -/
def createProgressReport (env : SolverEnv) (st : SolverState) :
    SolverReport × SolverState :=
  let r := stNow env st
  (progressReportOf env.config r.2.attempts (qSub r.1 r.2.startTime), r.2)

/-- The guard repeated at lines 219, 253, 277 and 290 of the solver:
`solutions.length >= 10 && maxAttempts > 0 && maxAttempts <= attempts`. -/
def earlyStop (cfg : SolverConfig) (st : SolverState) : Bool :=
  10 ≤ st.solutions.length ∧ 0 < cfg.maxAttempts ∧ cfg.maxAttempts ≤ st.attempts

/-- The `unaryOperators` array with its enable flags, in source order. -/
def unaryOperatorList (cfg : SolverConfig) : List (UnaryOperator × Bool) :=
  [(.factorial, cfg.enableFactorial), (.sqrt, cfg.enableSquareRoot),
    (.neg, cfg.enableNegation)]

/-- The `binaryOperators` array with its enable flags, in source order. -/
def binaryOperatorList (cfg : SolverConfig) : List (BinaryOperator × Bool) :=
  [(.add, cfg.enableAddition), (.sub, cfg.enableSubtraction),
    (.mul, cfg.enableMultiplication), (.div, cfg.enableDivision),
    (.mod, cfg.enableModulo), (.pow, cfg.enablePower)]

/-- The chained `continue` tests applied before a unary operator is tried
(both on the accumulated AST and on a candidate right-hand side); `v` is
the node's cached evaluation, which is always finite. -/
def unarySkip (cfg : SolverConfig) (op : UnaryOperator) (node : ASTNode)
    (v : ℚ) : Bool :=
  match op with
  | .factorial =>
      cfg.maxFactorialDepth ≤ getFactorialDepth node ∨ v < 0 ∨ v.den ≠ 1 ∨ 15 < v
        ∨ qAbs (qSub v 2) < eps10 ∨ qAbs (qSub v 1) < eps10
  | .sqrt => v < 0 ∨ qAbs (qSub v 1) < eps10
  | .neg => match node with
      | .unaryOp .neg _ => true
      | _ => false

/-- The applicability checks run inside the binary-operator `try` before
the combined node is built: division/modulo skip a near-zero divisor, and
power skips base one, zero to a negative power and a negative base with a
fractional exponent.  A thrown evaluation error and a `continue` both skip
to the next operator, so they are merged into `true`. -/
def binOpSkip (cfg : SolverConfig) (op : BinaryOperator) (lhs rhs : ASTNode)
    (cache : List (String × ℚ)) : Bool × List (String × ℚ) :=
  match op with
  | .div | .mod =>
      let r := evaluateWithCache rhs cache
      (match r.1 with
        | .error _ => true
        | .ok rhsVal => decide (qAbs rhsVal < eps12), r.2)
  | .pow =>
      let r1 := evaluateWithCache lhs cache
      (match r1.1 with
        | .error _ => (true, r1.2)
        | .ok lhsVal =>
            if qAbs (qSub lhsVal 1) < eps12 then (true, r1.2)
            else
              let r2 := evaluateWithCache rhs r1.2
              (match r2.1 with
                | .error _ => true
                | .ok rhsVal =>
                    decide ((qAbs lhsVal < eps12 ∧ rhsVal < 0)
                      ∨ (lhsVal < 0 ∧ eps12 < qAbs (ratRem rhsVal 1))), r2.2) :
        Bool × List (String × ℚ))
  | _ => (false, cache)

/-- The RHS candidates built from the next unconsumed digits: the next
single number, then (when concatenation is on) concatenations of the next
2 to 4 digits, each with the count of digits it consumes. -/
def possibleRhsInfos (cfg : SolverConfig) : List ℕ → List (ASTNode × ℕ)
  | [] => []
  | r :: rs =>
      (.number (.num (qOfNat r)), 1) ::
        (if cfg.enableConcatenation ∧ 2 ≤ (r :: rs).length then
          (List.range' 2 (min 4 (r :: rs).length - 1)).map
            (fun len => (.concat ((r :: rs).take len), len))
        else [])

/-- The initial AST creation paths of `Solver.solve`: the first number by
itself, then (when concatenation is on) concatenations of the first 2 to 4
digits. -/
def initialAstCreationPaths (cfg : SolverConfig) : List ℕ → List (ASTNode × ℕ)
  | [] => []
  | n :: ns =>
      (.number (.num (qOfNat n)), 1) ::
        (if cfg.enableConcatenation then
          (List.range' 2 (min 4 (n :: ns).length - 1)).map
            (fun len => (.concat ((n :: ns).take len), len))
        else [])

/-- Outcome of a loop body or call: the events yielded, the state, and a
flag (`true` = the enclosing function `return`ed early, or — for
`findCombinationsRecursive` itself — the `CANCELLED` error was thrown). -/
abbrev StepResult := List SolverReport × SolverState × Bool

/-- The base case of `findCombinationsRecursive` (all numbers consumed):
test the accumulated AST, push it unless a stored solution renders to the
same string, and yield a `solution` event. -/
def handleBaseCase (env : SolverEnv) (target : ℚ) (ast : ASTNode)
    (st : SolverState) : List SolverReport × SolverState :=
  let r := checkSolution ast target st.cache
  let st1 := { st with cache := r.2 }
  if r.1 then
    let solution : ExpressionNode := ⟨ast, target⟩
    if st1.solutions.any (fun s => s.render == solution.render) then ([], st1)
    else
      let st2 := { st1 with solutions := st1.solutions ++ [solution] }
      let r2 := stNow env st2
      ([⟨.solution, r2.2.attempts, some solution,
          calculateETA env.config r2.2.attempts 0,
          calculateProgress env.config r2.2.attempts 0,
          qSub r2.1 r2.2.startTime⟩], incYields r2.2)
  else ([], st1)

/-- Option 1 of the recursion: the loop over `unaryOperators` applied to
the accumulated AST.  `recurse` is the nested `findCombinationsRecursive`
call at `depth + 1`; a `CANCELLED` error thrown by it is swallowed by the
surrounding `catch`, exactly as in the source. -/
def unaryLoop (cfg : SolverConfig) (recurse : ASTNode → SolverState → StepResult)
    (currentAst : ASTNode) :
    List (UnaryOperator × Bool) → SolverState → StepResult
  | [], st => ([], st, false)
  | (op, enabled) :: rest, st =>
      if !enabled then unaryLoop cfg recurse currentAst rest st
      else if earlyStop cfg st then ([], st, true)
      else
        let r := evaluateWithCache currentAst st.cache
        let st1 := { st with cache := r.2 }
        match r.1 with
        | .error _ => unaryLoop cfg recurse currentAst rest st1
        | .ok v =>
            if unarySkip cfg op currentAst v then
              unaryLoop cfg recurse currentAst rest st1
            else
              let rc := recurse (.unaryOp op currentAst) st1
              let rl := unaryLoop cfg recurse currentAst rest rc.2.1
              (rc.1 ++ rl.1, rl.2.1, rl.2.2)

/-- The loop that optionally pre-applies each enabled unary operator to a
base RHS node, collecting the extra candidates (cache effects included). -/
def rhsUnaryCollect (cfg : SolverConfig) (baseRhs : ASTNode) :
    List (UnaryOperator × Bool) → List (String × ℚ) →
      List ASTNode × List (String × ℚ)
  | [], cache => ([], cache)
  | (op, enabled) :: rest, cache =>
      if !enabled then rhsUnaryCollect cfg baseRhs rest cache
      else
        let r := evaluateWithCache baseRhs cache
        match r.1 with
        | .error _ => rhsUnaryCollect cfg baseRhs rest r.2
        | .ok v =>
            if unarySkip cfg op baseRhs v then rhsUnaryCollect cfg baseRhs rest r.2
            else
              let rc := rhsUnaryCollect cfg baseRhs rest r.2
              (.unaryOp op baseRhs :: rc.1, rc.2)

/-- The innermost loop over `binaryOperators` for one finalised RHS. -/
def binOpLoop (cfg : SolverConfig) (recurse : ASTNode → SolverState → StepResult)
    (currentAst finalRhs : ASTNode) :
    List (BinaryOperator × Bool) → SolverState → StepResult
  | [], st => ([], st, false)
  | (op, enabled) :: rest, st =>
      if !enabled then binOpLoop cfg recurse currentAst finalRhs rest st
      else if earlyStop cfg st then ([], st, true)
      else
        let r := binOpSkip cfg op currentAst finalRhs st.cache
        let st1 := { st with cache := r.2 }
        if r.1 then binOpLoop cfg recurse currentAst finalRhs rest st1
        else
          let rc := recurse (.binaryOp currentAst op finalRhs) st1
          let rl := binOpLoop cfg recurse currentAst finalRhs rest rc.2.1
          (rc.1 ++ rl.1, rl.2.1, rl.2.2)

/-- The loop over the finalised RHS candidates (base node first, then the
unary-wrapped variants). -/
def finalRhsLoop (cfg : SolverConfig) (recurse : ASTNode → SolverState → StepResult)
    (currentAst : ASTNode) :
    List ASTNode → SolverState → StepResult
  | [], st => ([], st, false)
  | rhs :: rest, st =>
      if earlyStop cfg st then ([], st, true)
      else
        let rb := binOpLoop cfg recurse currentAst rhs (binaryOperatorList cfg) st
        if rb.2.2 then (rb.1, rb.2.1, true)
        else
          let rl := finalRhsLoop cfg recurse currentAst rest rb.2.1
          (rb.1 ++ rl.1, rl.2.1, rl.2.2)

/-- Option 2 of the recursion: the loop over the RHS construction paths.
`recurse` receives the AST and the digits remaining after the RHS. -/
def rhsInfoLoop (cfg : SolverConfig)
    (recurse : ASTNode → List ℕ → SolverState → StepResult)
    (currentAst : ASTNode) (remaining : List ℕ) :
    List (ASTNode × ℕ) → SolverState → StepResult
  | [], st => ([], st, false)
  | (baseRhs, consumed) :: rest, st =>
      if earlyStop cfg st then ([], st, true)
      else
        let nextRemaining := remaining.drop consumed
        let rn := rhsUnaryCollect cfg baseRhs (unaryOperatorList cfg) st.cache
        let st1 := { st with cache := rn.2 }
        let rf :=
          finalRhsLoop cfg (fun a s => recurse a nextRemaining s) currentAst
            (baseRhs :: rn.1) st1
        if rf.2.2 then (rf.1, rf.2.1, true)
        else
          let rl := rhsInfoLoop cfg recurse currentAst remaining rest rf.2.1
          (rf.1 ++ rl.1, rl.2.1, rl.2.2)

/-- `Solver.findCombinationsRecursive`.  `fuel` stands for
`maxDepth - depth`, so `fuel = 0` is the `depth >= maxDepth` cut-off and
every nested call runs at `fuel - 1`.  The result flag is `true` exactly
when the entry cancellation check threw `CANCELLED`. -/
def findCombinationsRecursive (env : SolverEnv) (target : ℚ) :
    ℕ → ASTNode → List ℕ → SolverState → StepResult
  | 0, _currentAst, _remainingNumbers, st =>
    -- `depth >= maxDepth`: the cancellation check ran, `Date.now()` was
    -- read for the timeout check, and the call returns either way.
    if isCancelled env st then ([], st, true)
    else
      let r0 := stNow env st
      ([], r0.2, false)
  | fuel' + 1, currentAst, remainingNumbers, st =>
    if isCancelled env st then ([], st, true)
    else
      let r0 := stNow env st
      if env.config.timeout ≤ qSub r0.1 r0.2.startTime then ([], r0.2, false)
      else
          let st2 := { r0.2 with attempts := r0.2.attempts + 1 }
          if env.config.maxAttempts ≤ st2.attempts ∧ 0 < env.config.maxAttempts then
            ([], st2, false)
          else
            let r1 := stNow env st2
            let pr :=
              if env.config.reportInterval ≤ qSub r1.1 r1.2.lastReportTime then
                let rp := createProgressReport env r1.2
                let r2 := stNow env (incYields rp.2)
                ([rp.1], { r2.2 with lastReportTime := r2.1 })
              else ([], r1.2)
            match remainingNumbers with
            | [] =>
                let rb := handleBaseCase env target currentAst pr.2
                (pr.1 ++ rb.1, rb.2, false)
            | _ :: _ =>
                let ru :=
                  unaryLoop env.config
                    (fun a s =>
                      findCombinationsRecursive env target fuel' a remainingNumbers s)
                    currentAst (unaryOperatorList env.config) pr.2
                if ru.2.2 then (pr.1 ++ ru.1, ru.2.1, false)
                else
                  let rr :=
                    rhsInfoLoop env.config
                      (fun a rem s => findCombinationsRecursive env target fuel' a rem s)
                      currentAst remainingNumbers
                      (possibleRhsInfos env.config remainingNumbers) ru.2.1
                  (pr.1 ++ ru.1 ++ rr.1, rr.2.1, false)

/-- The `for (const path of initialAstCreationPaths)` loop of
`Solver.solve`, including the break condition checked before each path and
the propagation of a thrown `CANCELLED` out of the loop. -/
def solveLoop (env : SolverEnv) (target : ℚ) (numbers : List ℕ) :
    List (ASTNode × ℕ) → SolverState → StepResult
  | [], st => ([], st, false)
  | (ast, consumed) :: rest, st =>
      if isCancelled env st then ([], st, false)
      else if 10 ≤ st.solutions.length ∧ st.attempts < env.config.maxAttempts then
        ([], st, false)
      else
        let r0 := stNow env st
        if env.config.timeout ≤ qSub r0.1 r0.2.startTime then ([], r0.2, false)
        else
          let rf :=
            findCombinationsRecursive env target env.config.maxDepth ast
              (numbers.drop consumed) r0.2
          if rf.2.2 then (rf.1, rf.2.1, true)
          else
            let rl := solveLoop env target numbers rest rf.2.1
            (rf.1 ++ rl.1, rl.2.1, rl.2.2)

/-- The freshly `reset` solver state at the start of `solve`. -/
def initialState : SolverState := ⟨[], 0, 0, [], 0, 0, 0⟩

/-- `Solver.solve`: the whole generator run.  Returns the yielded events in
order, the returned `SolutionResult`, and the final solver state.  A
`CANCELLED` error escaping the path loop is swallowed by the
`try`/`catch`; both ways the single terminal `complete` event follows. -/
def solve (env : SolverEnv) (numbers : List ℕ) (target : ℚ) :
    List SolverReport × SolutionResult × SolverState :=
  let r0 := stNow env initialState
  let st2 := { r0.2 with startTime := r0.1 }
  match numbers with
  | [] =>
      let r1 := stNow env st2
      let duration := qSub r1.1 r1.2.startTime
      ([⟨.complete, 0, none, 0, 1, duration⟩],
        ⟨⟨.number (.num 0), target⟩, 0, duration, false⟩, incYields r1.2)
  | _ :: _ =>
      let rl :=
        solveLoop env target numbers (initialAstCreationPaths env.config numbers) st2
      let r1 := stNow env rl.2.1
      let duration := qSub r1.1 r1.2.startTime
      (rl.1 ++ [⟨.complete, r1.2.attempts, none, 0, 1, duration⟩],
        ⟨r1.2.solutions.headD ⟨.number .nan, target⟩, r1.2.attempts, duration,
          !r1.2.solutions.isEmpty⟩, incYields r1.2)

/-! ## Invariants and concrete environments used by the theorems -/

/-- Number of decimal-digit characters in a string.  In a canonical
rendering the digit characters come exactly from the consumed input
numbers: operators, parentheses, spaces and the radical sign contribute
none. -/
def dcc (s : String) : ℕ := s.data.countP Char.isDigit

/-- Total digit-character budget of a list of input numbers: how many
digit characters their decimal renderings contribute to a rendering that
consumes them all. -/
def dlen (ns : List ℕ) : ℕ := (ns.map (fun n => dcc (toString n))).sum

/-- The per-event invariant of a search run with target `target`: the event
is not `complete`; a `solution` event carries an expression for this target
whose raw evaluation (`ASTNode.evaluate`, no cache involved) succeeds with
a finite value within `1e-9` of the target; a `progress` event is exactly a
`createProgressReport` record. -/
def EventOK (cfg : SolverConfig) (target : ℚ) (e : SolverReport) : Prop :=
  e.type ≠ .complete
  ∧ (e.type = .solution →
      ∃ exp, e.currentExpression = some exp ∧ exp.target = target ∧
        ∃ v : ℚ, evaluate exp.left = .ok (.num v) ∧ qAbs (qSub v target) < eps9)
  ∧ (e.type = .progress → ∃ a d, e = progressReportOf cfg a d)

/-- The state invariant: no two stored solutions share a canonical text
rendering. -/
def SolInv (st : SolverState) : Prop :=
  (st.solutions.map ExpressionNode.render).Nodup

/-- Soundness of the evaluation cache against the digit budget `N` (the
digit-character count of a rendering that consumes every input number):
every entry either belongs to a partially-consuming node — strictly fewer
than `N` digit characters in its key — or, when its value lies within
`1e-9` of the target, records an expression already stored in the
solutions list.  This is what makes a cache hit at the base case unable to
fabricate a solution event: a full-budget hit within tolerance is always
caught by the duplicate check. -/
def CacheInv (target : ℚ) (N : ℕ) (cache : List (String × ℚ))
    (sols : List ExpressionNode) : Prop :=
  ∀ p ∈ cache, dcc p.1 < N ∨
    (qAbs (qSub p.2 target) < eps9 →
      ∃ exp ∈ sols, exp.render = p.1 ++ " = " ++ ratToString target)

/-- The running invariant of one search: distinct stored renderings plus
cache soundness. -/
def RunInv (target : ℚ) (N : ℕ) (st : SolverState) : Prop :=
  SolInv st ∧ CacheInv target N st.cache st.solutions

/-- Invariant-preservation contract for the recursion callback of the
inner loops (`findCombinationsRecursive` at `depth + 1`): on arguments
that respect the digit budget it preserves the running invariant and
yields only `EventOK` events. -/
def RecOK (cfg : SolverConfig) (target : ℚ) (N : ℕ)
    (recurse : ASTNode → List ℕ → SolverState → StepResult) : Prop :=
  ∀ a rem s, dcc a.render + dlen rem = N → 0 < dcc a.render →
    RunInv target N s →
      RunInv target N (recurse a rem s).2.1 ∧
      ∀ e ∈ (recurse a rem s).1, EventOK cfg target e

/-- A `Date.now()` oracle frozen at `0` (no wall-clock time passes). -/
def frozenClock : ℕ → ℚ := fun _ => 0

/-- Scenario B environment: concatenation enabled, every operator family
disabled, other fields at their defaults, clock frozen, no cancellation. -/
def scenarioBEnv : SolverEnv :=
  ⟨⟨1000000, 30000, 2, true, false, false, false, false, false, false, false,
    false, false, 100, 8⟩, frozenClock, none⟩

/-- Environment used to overflow the 10-solution cap: concatenation,
addition, subtraction and multiplication enabled, `maxDepth 2`, clock
frozen, no cancellation. -/
def capBreakEnv : SolverEnv :=
  ⟨⟨1000000, 30000, 2, true, true, true, true, false, false, false, false,
    false, false, 100, 2⟩, frozenClock, none⟩

/-- The default configuration with a frozen clock and no cancellation. -/
def defaultEnv : SolverEnv := ⟨defaultConfig, frozenClock, none⟩

/-- The default configuration with a clock advancing 100 ms per
`Date.now()` call (so the first recursion step emits a progress report). -/
def tickingEnv : SolverEnv := ⟨defaultConfig, fun k => qMul 100 (qOfNat k), none⟩

/-- A state holding ten (placeholder) solutions and five attempts, used to
witness the between-paths break of the top-level loop. -/
def tenSolutionState : SolverState :=
  ⟨[], 0, 5, List.replicate 10 ⟨.number (.num 0), 0⟩, 0, 0, 0⟩

/-- The `solution` event emitted by `solve defaultEnv [1] 1`. -/
def solutionEventW : SolverReport :=
  ⟨.solution, 1, some ⟨.number (.num 1), 1⟩, 30000, 0, 0⟩

/-- The `progress` event emitted by `solve tickingEnv [1] 1`. -/
def progressEventW : SolverReport := progressReportOf defaultConfig 1 400

/-- The literal `1e-13`: a divisor within the solver's `1e-12` epsilon of
zero, but not strictly equal to zero. -/
def tinyDivisor : ℚ := mkRat 1 10000000000000

/-- The expression `(-1) ^ (1 / 2)`: a power node with negative base and
fractional exponent. -/
def negBaseFractionalPow : ASTNode :=
  .binaryOp (.number (.num (-1))) .pow
    (.binaryOp (.number (.num 1)) .div (.number (.num 2)))

deriving instance DecidableEq for Except

/-! ## Bridging lemmas: the `mkRat`-based helpers equal the standard
operations on `ℚ` -/

theorem qOfNat_eq (n : ℕ) : qOfNat n = (n : ℚ) := by
  simp [qOfNat]

theorem qOfInt_eq (i : ℤ) : qOfInt i = (i : ℚ) := by
  simp [qOfInt]

theorem qAdd_eq (a b : ℚ) : qAdd a b = a + b := by
  rw [qAdd, Rat.mkRat_eq_divInt, Rat.add_num_den a b, mul_comm (a.den : ℤ) b.num]
  push_cast
  rfl

theorem qNeg_eq (a : ℚ) : qNeg a = -a := by
  rw [qNeg, Rat.mkRat_eq_divInt, ← Rat.neg_divInt, Rat.num_divInt_den]

theorem qSub_eq (a b : ℚ) : qSub a b = a - b := by
  rw [qSub, qNeg_eq, qAdd_eq, sub_eq_add_neg]

theorem qMul_eq (a b : ℚ) : qMul a b = a * b := by
  rw [qMul, Rat.mkRat_eq_divInt]
  conv_rhs => rw [← Rat.num_divInt_den a, ← Rat.num_divInt_den b, Rat.divInt_mul_divInt']
  push_cast
  rfl

theorem qInv_eq (a : ℚ) : qInv a = a⁻¹ := by
  rw [qInv, Rat.inv_def']
  split
  · rw [Rat.mkRat_eq_divInt, Int.toNat_of_nonneg (by assumption)]
  · rw [qNeg_eq, Rat.mkRat_eq_divInt, Int.toNat_of_nonneg (by omega)]
    rw [Rat.divInt_neg, ← Rat.neg_divInt, neg_neg]

theorem qDiv_eq (a b : ℚ) : qDiv a b = a / b := by
  rw [qDiv, qMul_eq, qInv_eq, div_eq_mul_inv]

theorem qAbs_eq (a : ℚ) : qAbs a = |a| := by
  rw [qAbs]
  rcases lt_trichotomy a 0 with h | h | h
  · rw [if_pos (by exact_mod_cast Rat.num_neg.2 h), qNeg_eq, abs_of_neg h]
  · subst h; simp
  · have h2 : ¬a.num < 0 := not_lt.2 (Rat.num_nonneg.2 h.le)
    rw [if_neg h2, abs_of_pos h]

theorem qMin_eq (a b : ℚ) : qMin a b = min a b := by
  rw [qMin, min_def]

theorem qMax_eq (a b : ℚ) : qMax a b = max a b := by
  rw [qMax, max_def]

theorem eps9_eq : eps9 = 1 / 10 ^ 9 := by
  rw [eps9, Rat.mkRat_eq_divInt, Rat.divInt_eq_div]
  norm_num

theorem eps10_eq : eps10 = 1 / 10 ^ 10 := by
  rw [eps10, Rat.mkRat_eq_divInt, Rat.divInt_eq_div]
  norm_num

theorem eps12_eq : eps12 = 1 / 10 ^ 12 := by
  rw [eps12, Rat.mkRat_eq_divInt, Rat.divInt_eq_div]
  norm_num

theorem factorialFn_eq (n : ℕ) : factorialFn n = (Nat.factorial n : ℚ) := by
  induction n with
  | zero => simp [factorialFn, Nat.factorial]
  | succ k ih => rw [factorialFn, qMul_eq, qOfNat_eq, ih, Nat.factorial]; push_cast; ring

end Sum100

namespace Sum100

/-! ## Digit-character counting: every digit character of a rendering
comes from a consumed input number -/

theorem digitChar_isDigit : ∀ m : ℕ, m < 10 → (Nat.digitChar m).isDigit = true := by
  decide

theorem toDigitsCore_all (fuel : ℕ) :
    ∀ (n : ℕ) (ds : List Char), (∀ c ∈ ds, c.isDigit = true) →
      ∀ c ∈ Nat.toDigitsCore 10 fuel n ds, c.isDigit = true := by
  induction fuel with
  | zero =>
      intro n ds h
      simpa [Nat.toDigitsCore] using h
  | succ f ih =>
      intro n ds h
      simp only [Nat.toDigitsCore]
      split
      · intro c hc
        rcases List.mem_cons.1 hc with h1 | h1
        · subst h1
          exact digitChar_isDigit _ (Nat.mod_lt _ (by norm_num))
        · exact h c h1
      · exact ih _ _ (by
          intro c hc
          rcases List.mem_cons.1 hc with h1 | h1
          · subst h1
            exact digitChar_isDigit _ (Nat.mod_lt _ (by norm_num))
          · exact h c h1)

theorem toDigitsCore_len (fuel : ℕ) :
    ∀ (n : ℕ) (ds : List Char), ds.length ≤ (Nat.toDigitsCore 10 fuel n ds).length := by
  induction fuel with
  | zero =>
      intro n ds
      simp [Nat.toDigitsCore]
  | succ f ih =>
      intro n ds
      simp only [Nat.toDigitsCore]
      split
      · simp
      · exact le_trans (by simp) (ih (n / 10) (Nat.digitChar (n % 10) :: ds))

theorem dcc_toString_pos (n : ℕ) : 0 < dcc (toString n) := by
  show 0 < dcc (Nat.repr n)
  have h1 : ∀ c ∈ Nat.toDigits 10 n, c.isDigit = true :=
    toDigitsCore_all (n + 1) n [] (by simp)
  have h2 : 0 < (Nat.toDigits 10 n).length := by
    show 0 < (Nat.toDigitsCore 10 (n + 1) n []).length
    simp only [Nat.toDigitsCore]
    split
    · simp
    · exact lt_of_lt_of_le (by simp) (toDigitsCore_len n (n / 10) [Nat.digitChar (n % 10)])
  rcases hx : Nat.toDigits 10 n with _ | ⟨c, cs⟩
  · rw [hx] at h2
    simp at h2
  · have hd : dcc (Nat.repr n) = (Nat.toDigits 10 n).countP Char.isDigit := by
      simp [dcc, Nat.repr, List.asString]
    rw [hd, hx, List.countP_cons]
    have := h1 c (by rw [hx]; exact List.mem_cons_self c cs)
    simp [this]

theorem dcc_append (s t : String) : dcc (s ++ t) = dcc s + dcc t := by
  simp [dcc, String.data_append, List.countP_append]

theorem dcc_join (l : List String) : dcc (String.join l) = (l.map dcc).sum := by
  have key : ∀ (l : List String) (acc : String),
      dcc (l.foldl (· ++ ·) acc) = dcc acc + (l.map dcc).sum := by
    intro l
    induction l with
    | nil =>
        intro acc
        simp
    | cons s rest ih =>
        intro acc
        simp only [List.foldl_cons, List.map_cons, List.sum_cons]
        rw [ih, dcc_append]
        ring
  have hj : String.join l = l.foldl (· ++ ·) "" := rfl
  rw [hj, key]
  simp [dcc]

theorem dlen_cons (n : ℕ) (ns : List ℕ) :
    dlen (n :: ns) = dcc (toString n) + dlen ns := by
  simp [dlen]

theorem dlen_take_drop (k : ℕ) (ns : List ℕ) :
    dlen (ns.take k) + dlen (ns.drop k) = dlen ns := by
  simp only [dlen, List.map_take, List.map_drop]
  exact List.sum_take_add_sum_drop (ns.map fun n => dcc (toString n)) k

theorem dlen_pos (ns : List ℕ) (h : ns ≠ []) : 0 < dlen ns := by
  cases ns with
  | nil => exact absurd rfl h
  | cons n tail =>
      rw [dlen_cons]
      have := dcc_toString_pos n
      omega

theorem dcc_render_number (d : ℕ) :
    dcc (ASTNode.render (.number (.num (qOfNat d)))) = dcc (toString d) := by
  have h1 : (qOfNat d).den = 1 := by rw [qOfNat_eq]; simp
  have h2 : (qOfNat d).num = (d : ℤ) := by rw [qOfNat_eq]; simp
  simp only [ASTNode.render, jsNumberToString, ratToString, h1, h2, if_true]
  rfl

theorem dcc_render_concat (ns : List ℕ) :
    dcc (ASTNode.render (.concat ns)) = dlen ns := by
  simp only [ASTNode.render, dcc_join, dlen, List.map_map]
  rfl

theorem dcc_render_unary (u : UnaryOperator) (x : ASTNode) :
    dcc (ASTNode.render (.unaryOp u x)) = dcc x.render := by
  have hb : dcc "!" = 0 := rfl
  have hs : dcc "√" = 0 := rfl
  have hn : dcc "-" = 0 := rfl
  cases u
  · rw [show ASTNode.render (.unaryOp .factorial x) = x.render ++ "!" from rfl,
      dcc_append, hb]
    omega
  · rw [show ASTNode.render (.unaryOp .sqrt x) = "√" ++ x.render from rfl,
      dcc_append, hs]
    omega
  · rw [show ASTNode.render (.unaryOp .neg x) = "-" ++ x.render from rfl,
      dcc_append, hn]
    omega

theorem dcc_toText (op : BinaryOperator) : dcc op.toText = 0 := by
  cases op <;> rfl

theorem dcc_render_binop (l : ASTNode) (op : BinaryOperator) (r : ASTNode) :
    dcc (ASTNode.render (.binaryOp l op r)) = dcc l.render + dcc r.render := by
  have h1 : dcc "(" = 0 := rfl
  have h2 : dcc ")" = 0 := rfl
  have h3 : dcc " " = 0 := rfl
  rw [show ASTNode.render (.binaryOp l op r)
      = "(" ++ l.render ++ " " ++ op.toText ++ " " ++ r.render ++ ")" from rfl]
  simp only [dcc_append, dcc_toText, h1, h2, h3]
  omega

/-! ## Digit budgets of the generated RHS candidates and initial paths -/

theorem possibleRhsInfos_spec (cfg : SolverConfig) (rem : List ℕ) :
    ∀ p ∈ possibleRhsInfos cfg rem,
      dcc (p.1).render + dlen (rem.drop p.2) = dlen rem ∧ 0 < dcc (p.1).render := by
  cases rem with
  | nil =>
      intro p hp
      simp [possibleRhsInfos] at hp
  | cons r rs =>
      intro p hp
      simp only [possibleRhsInfos] at hp
      rcases List.mem_cons.1 hp with h | h
      · subst h
        simp only [dcc_render_number, List.drop_succ_cons, List.drop_zero]
        exact ⟨(dlen_cons r rs).symm, dcc_toString_pos r⟩
      · split at h
        · simp only [List.mem_map] at h
          obtain ⟨len, hlen, rfl⟩ := h
          have hge : 2 ≤ len := (List.mem_range'_1.1 hlen).1
          refine ⟨?_, ?_⟩
          · simp only [dcc_render_concat]
            exact dlen_take_drop len (r :: rs)
          · rw [dcc_render_concat]
            apply dlen_pos
            obtain ⟨m, rfl⟩ : ∃ m, len = m + 1 := ⟨len - 1, by omega⟩
            simp [List.take_succ_cons]
        · simp at h

theorem initialAstCreationPaths_spec (cfg : SolverConfig) (ns : List ℕ) :
    ∀ p ∈ initialAstCreationPaths cfg ns,
      dcc (p.1).render + dlen (ns.drop p.2) = dlen ns ∧ 0 < dcc (p.1).render := by
  cases ns with
  | nil =>
      intro p hp
      simp [initialAstCreationPaths] at hp
  | cons r rs =>
      intro p hp
      simp only [initialAstCreationPaths] at hp
      rcases List.mem_cons.1 hp with h | h
      · subst h
        simp only [dcc_render_number, List.drop_succ_cons, List.drop_zero]
        exact ⟨(dlen_cons r rs).symm, dcc_toString_pos r⟩
      · split at h
        · simp only [List.mem_map] at h
          obtain ⟨len, hlen, rfl⟩ := h
          have hge : 2 ≤ len := (List.mem_range'_1.1 hlen).1
          refine ⟨?_, ?_⟩
          · simp only [dcc_render_concat]
            exact dlen_take_drop len (r :: rs)
          · rw [dcc_render_concat]
            apply dlen_pos
            obtain ⟨m, rfl⟩ : ∃ m, len = m + 1 := ⟨len - 1, by omega⟩
            simp [List.take_succ_cons]
        · simp at h

/-! ## Cache soundness machinery -/

theorem cacheGet_mem (cache : List (String × ℚ)) (key : String) (v : ℚ)
    (h : cacheGet cache key = some v) : ∃ p ∈ cache, p.1 = key ∧ p.2 = v := by
  simp only [cacheGet, Option.map_eq_some'] at h
  obtain ⟨p, hp, hv⟩ := h
  refine ⟨p, List.mem_of_find?_eq_some hp, ?_, hv⟩
  have := List.find?_some hp
  simpa using this

theorem cacheSet_mem (cache : List (String × ℚ)) (key : String) (v : ℚ) :
    ∀ p ∈ cacheSet cache key v, p = (key, v) ∨ p ∈ cache := by
  intro p hp
  simp only [cacheSet] at hp
  rcases List.mem_cons.1 hp with h | h
  · exact Or.inl h
  · right
    split at h
    · simp at h
    · exact List.mem_of_mem_filter h

theorem evalWC_hit (node : ASTNode) (cache : List (String × ℚ)) (v : ℚ)
    (h : cacheGet cache node.render = some v) :
    evaluateWithCache node cache = (.ok v, cache) := by
  simp [evaluateWithCache, h]

theorem evalWC_miss_err (node : ASTNode) (cache : List (String × ℚ))
    (err : EvalError) (h : cacheGet cache node.render = none)
    (hev : evaluate node = .error err) :
    evaluateWithCache node cache = (.error err, cache) := by
  simp [evaluateWithCache, h, hev]

theorem evalWC_miss_ok (node : ASTNode) (cache : List (String × ℚ)) (q : ℚ)
    (h : cacheGet cache node.render = none) (hev : evaluate node = .ok (.num q)) :
    evaluateWithCache node cache = (.ok q, cacheSet cache node.render q) := by
  simp [evaluateWithCache, h, hev]

theorem evalWC_writes (node : ASTNode) (cache : List (String × ℚ)) :
    ∀ p ∈ (evaluateWithCache node cache).2,
      p ∈ cache ∨ (p.1 = node.render ∧ evaluate node = .ok (.num p.2)) := by
  intro p hp
  rcases hget : cacheGet cache node.render with _ | v
  · rcases hev : evaluate node with err | val
    · rw [(evalWC_miss_err node cache err hget hev :)] at hp
      exact Or.inl hp
    · cases val with
      | num q =>
          rw [(evalWC_miss_ok node cache q hget hev :)] at hp
          rcases cacheSet_mem cache node.render q p hp with h | h
          · right
            rw [h]
            exact ⟨rfl, rfl⟩
          · exact Or.inl h
      | nan =>
          have hc : (evaluateWithCache node cache).2 = cache := by
            simp [evaluateWithCache, hget, hev]
          rw [hc] at hp
          exact Or.inl hp
      | posInf =>
          have hc : (evaluateWithCache node cache).2 = cache := by
            simp [evaluateWithCache, hget, hev]
          rw [hc] at hp
          exact Or.inl hp
      | negInf =>
          have hc : (evaluateWithCache node cache).2 = cache := by
            simp [evaluateWithCache, hget, hev]
          rw [hc] at hp
          exact Or.inl hp
  · rw [(evalWC_hit node cache v hget :)] at hp
    exact Or.inl hp

theorem CacheInv_extend (target : ℚ) (N : ℕ) (cache cache2 : List (String × ℚ))
    (sols : List ExpressionNode) (h : CacheInv target N cache sols)
    (h2 : ∀ p ∈ cache2, p ∈ cache ∨ dcc p.1 < N) :
    CacheInv target N cache2 sols := by
  intro p hp
  rcases h2 p hp with h3 | h3
  · exact h p h3
  · exact Or.inl h3

theorem evalWC_cacheInv (target : ℚ) (N : ℕ) (node : ASTNode)
    (cache : List (String × ℚ)) (sols : List ExpressionNode)
    (h : CacheInv target N cache sols) (hlt : dcc node.render < N) :
    CacheInv target N (evaluateWithCache node cache).2 sols := by
  refine CacheInv_extend target N cache _ sols h ?_
  intro p hp
  rcases evalWC_writes node cache p hp with h1 | h1
  · exact Or.inl h1
  · right
    rw [h1.1]
    exact hlt

theorem binOpSkip_writes (cfg : SolverConfig) (op : BinaryOperator)
    (lhs rhs : ASTNode) (cache : List (String × ℚ)) :
    ∀ p ∈ (binOpSkip cfg op lhs rhs cache).2,
      p ∈ cache ∨ p.1 = lhs.render ∨ p.1 = rhs.render := by
  cases op with
  | div =>
      intro p hp
      rcases evalWC_writes rhs cache p hp with h | h
      · exact Or.inl h
      · exact Or.inr (Or.inr h.1)
  | mod =>
      intro p hp
      rcases evalWC_writes rhs cache p hp with h | h
      · exact Or.inl h
      · exact Or.inr (Or.inr h.1)
  | pow =>
      intro p hp
      simp only [binOpSkip] at hp
      rcases hev : (evaluateWithCache lhs cache).1 with err | lv <;>
        simp only [hev] at hp
      · rcases evalWC_writes lhs cache p hp with h | h
        · exact Or.inl h
        · exact Or.inr (Or.inl h.1)
      · split at hp
        · rcases evalWC_writes lhs cache p hp with h | h
          · exact Or.inl h
          · exact Or.inr (Or.inl h.1)
        · rcases evalWC_writes rhs _ p hp with h | h
          · rcases evalWC_writes lhs cache p h with h2 | h2
            · exact Or.inl h2
            · exact Or.inr (Or.inl h2.1)
          · exact Or.inr (Or.inr h.1)
  | add =>
      intro p hp
      exact Or.inl hp
  | sub =>
      intro p hp
      exact Or.inl hp
  | mul =>
      intro p hp
      exact Or.inl hp

theorem binOpSkip_cacheInv (cfg : SolverConfig) (op : BinaryOperator)
    (lhs rhs : ASTNode) (target : ℚ) (N : ℕ) (cache : List (String × ℚ))
    (sols : List ExpressionNode) (h : CacheInv target N cache sols)
    (hl : dcc lhs.render < N) (hr : dcc rhs.render < N) :
    CacheInv target N (binOpSkip cfg op lhs rhs cache).2 sols := by
  refine CacheInv_extend target N cache _ sols h ?_
  intro p hp
  rcases binOpSkip_writes cfg op lhs rhs cache p hp with h1 | h1 | h1
  · exact Or.inl h1
  · right
    rw [h1]
    exact hl
  · right
    rw [h1]
    exact hr

theorem rhsUnaryCollect_writes (cfg : SolverConfig) (baseRhs : ASTNode) :
    ∀ (ops : List (UnaryOperator × Bool)) (cache : List (String × ℚ)),
      ∀ p ∈ (rhsUnaryCollect cfg baseRhs ops cache).2,
        p ∈ cache ∨ p.1 = baseRhs.render := by
  intro ops
  induction ops with
  | nil =>
      intro cache p hp
      exact Or.inl hp
  | cons o rest ih =>
      obtain ⟨u, enabled⟩ := o
      intro cache p hp
      simp only [rhsUnaryCollect] at hp
      split at hp
      · exact ih cache p hp
      · have key : ∀ hp2 : p ∈ (rhsUnaryCollect cfg baseRhs rest
            (evaluateWithCache baseRhs cache).2).2, p ∈ cache ∨ p.1 = baseRhs.render := by
          intro hp2
          rcases ih _ p hp2 with h | h
          · rcases evalWC_writes baseRhs cache p h with h2 | h2
            · exact Or.inl h2
            · exact Or.inr h2.1
          · exact Or.inr h
        rcases hev : (evaluateWithCache baseRhs cache).1 with err | v <;>
          simp only [hev] at hp
        · exact key hp
        · split at hp
          · exact key hp
          · exact key hp

theorem rhsUnaryCollect_cacheInv (cfg : SolverConfig) (baseRhs : ASTNode)
    (target : ℚ) (N : ℕ) (ops : List (UnaryOperator × Bool))
    (cache : List (String × ℚ)) (sols : List ExpressionNode)
    (h : CacheInv target N cache sols) (hlt : dcc baseRhs.render < N) :
    CacheInv target N (rhsUnaryCollect cfg baseRhs ops cache).2 sols := by
  refine CacheInv_extend target N cache _ sols h ?_
  intro p hp
  rcases rhsUnaryCollect_writes cfg baseRhs ops cache p hp with h1 | h1
  · exact Or.inl h1
  · right
    rw [h1]
    exact hlt

theorem rhsUnaryCollect_mem (cfg : SolverConfig) (baseRhs : ASTNode) :
    ∀ (ops : List (UnaryOperator × Bool)) (cache : List (String × ℚ)),
      ∀ a ∈ (rhsUnaryCollect cfg baseRhs ops cache).1,
        ∃ u, a = .unaryOp u baseRhs := by
  intro ops
  induction ops with
  | nil =>
      intro cache a ha
      simp [rhsUnaryCollect] at ha
  | cons o rest ih =>
      obtain ⟨u, enabled⟩ := o
      intro cache a ha
      simp only [rhsUnaryCollect] at ha
      split at ha
      · exact ih cache a ha
      · rcases hev : (evaluateWithCache baseRhs cache).1 with err | v <;>
          simp only [hev] at ha
        · exact ih _ a ha
        · split at ha
          · exact ih _ a ha
          · rcases List.mem_cons.1 ha with h | h
            · exact ⟨u, h⟩
            · exact ih _ a h

/-! ## The base case and the loop invariants -/

theorem handleBaseCase_ok (env : SolverEnv) (target : ℚ) (N : ℕ) (ast : ASTNode)
    (st : SolverState) (h : RunInv target N st) (hN : dcc ast.render = N) :
    RunInv target N (handleBaseCase env target ast st).2 ∧
    ∀ e ∈ (handleBaseCase env target ast st).1, EventOK env.config target e := by
  obtain ⟨hsol, hcache⟩ := h
  rcases hget : cacheGet st.cache ast.render with _ | v
  · -- cache miss: the check sees the raw evaluation
    rcases hev : evaluate ast with err | val
    · have heq : handleBaseCase env target ast st = ([], { st with cache := st.cache }) := by
        simp only [handleBaseCase, checkSolution, evalWC_miss_err ast st.cache err hget hev]
        simp
      rw [heq]
      exact ⟨⟨hsol, hcache⟩, by simp⟩
    · cases val with
      | num q =>
          have hc : checkSolution ast target st.cache
              = (decide (qAbs (qSub q target) < eps9), cacheSet st.cache ast.render q) := by
            simp only [checkSolution, evalWC_miss_ok ast st.cache q hget hev]
          by_cases hin : qAbs (qSub q target) < eps9
          · -- within tolerance: duplicate or genuine push
            simp only [handleBaseCase, hc]
            rw [if_pos (by simp [hin])]
            split
            · -- duplicate: nothing pushed, no event
              rename_i hdup
              refine ⟨⟨hsol, ?_⟩, by simp⟩
              intro p hp
              rcases cacheSet_mem st.cache ast.render q p hp with h1 | h1
              · right
                intro _
                have hdup2 : (st.solutions.any
                    (fun s => s.render == ExpressionNode.render ⟨ast, target⟩)) = true := by
                  exact hdup
                rw [List.any_eq_true] at hdup2
                obtain ⟨s, hs, hr⟩ := hdup2
                refine ⟨s, hs, ?_⟩
                rw [h1]
                exact beq_iff_eq.1 hr
              · exact hcache p h1
            · -- fresh solution: pushed, a solution event is yielded
              rename_i hdup
              have hdup2 : ¬(st.solutions.any
                  (fun s => s.render == ExpressionNode.render ⟨ast, target⟩)) = true := by
                exact hdup
              constructor
              · constructor
                · -- distinct renderings after the push
                  simp only [SolInv, stNow, incYields, List.map_append, List.map_cons,
                    List.map_nil]
                  rw [List.nodup_append]
                  refine ⟨hsol, List.nodup_singleton _, ?_⟩
                  intro x hx hy
                  simp only [List.mem_singleton] at hy
                  subst hy
                  simp only [List.mem_map] at hx
                  obtain ⟨s, hs, hxr⟩ := hx
                  rw [List.any_eq_true] at hdup2
                  exact hdup2 ⟨s, hs, by simp [hxr]⟩
                · -- cache soundness with the new entry and the pushed solution
                  intro p hp
                  rcases cacheSet_mem st.cache ast.render q p hp with h1 | h1
                  · right
                    intro _
                    refine ⟨⟨ast, target⟩, List.mem_append_right _ (List.mem_singleton.2 rfl), ?_⟩
                    rw [h1]
                    rfl
                  · rcases hcache p h1 with h2 | h2
                    · exact Or.inl h2
                    · right
                      intro hin2
                      obtain ⟨exp, he, hr⟩ := h2 hin2
                      exact ⟨exp, List.mem_append_left _ he, hr⟩
              · intro e he
                simp only [List.mem_singleton] at he
                subst he
                refine ⟨by simp, ?_, by simp⟩
                intro _
                exact ⟨⟨ast, target⟩, rfl, rfl, q, hev, hin⟩
          · -- outside tolerance: value cached, nothing pushed
            have heq : handleBaseCase env target ast st
                = ([], { st with cache := cacheSet st.cache ast.render q }) := by
              simp only [handleBaseCase, hc]
              rw [if_neg (by simpa using hin)]
            rw [heq]
            refine ⟨⟨hsol, ?_⟩, by simp⟩
            intro p hp
            rcases cacheSet_mem st.cache ast.render q p hp with h1 | h1
            · right
              intro hin2
              rw [h1] at hin2
              exact absurd hin2 hin
            · exact hcache p h1
      | nan =>
          have heq : handleBaseCase env target ast st = ([], { st with cache := st.cache }) := by
            simp [handleBaseCase, checkSolution, evaluateWithCache, hget, hev]
          rw [heq]
          exact ⟨⟨hsol, hcache⟩, by simp⟩
      | posInf =>
          have heq : handleBaseCase env target ast st = ([], { st with cache := st.cache }) := by
            simp [handleBaseCase, checkSolution, evaluateWithCache, hget, hev]
          rw [heq]
          exact ⟨⟨hsol, hcache⟩, by simp⟩
      | negInf =>
          have heq : handleBaseCase env target ast st = ([], { st with cache := st.cache }) := by
            simp [handleBaseCase, checkSolution, evaluateWithCache, hget, hev]
          rw [heq]
          exact ⟨⟨hsol, hcache⟩, by simp⟩
  · -- cache hit at full digit budget: the entry was recorded at an earlier
    -- base case, so a within-tolerance value is always a duplicate
    have hc : checkSolution ast target st.cache
        = (decide (qAbs (qSub v target) < eps9), st.cache) := by
      simp only [checkSolution, evalWC_hit ast st.cache v hget]
    by_cases hin : qAbs (qSub v target) < eps9
    · obtain ⟨p, hpmem, hpkey, hpval⟩ := cacheGet_mem st.cache ast.render v hget
      have hfull : ∃ exp ∈ st.solutions,
          exp.render = ast.render ++ " = " ++ ratToString target := by
        rcases hcache p hpmem with h1 | h1
        · rw [hpkey, hN] at h1
          omega
        · obtain ⟨exp, he, hr⟩ := h1 (by rw [hpval]; exact hin)
          rw [hpkey] at hr
          exact ⟨exp, he, hr⟩
      have hdup : (st.solutions.any
          (fun s => s.render == ExpressionNode.render ⟨ast, target⟩)) = true := by
        obtain ⟨exp, he, hr⟩ := hfull
        rw [List.any_eq_true]
        refine ⟨exp, he, ?_⟩
        rw [show ExpressionNode.render ⟨ast, target⟩
            = ast.render ++ " = " ++ ratToString target from rfl, hr]
        exact beq_self_eq_true _
      have heq : handleBaseCase env target ast st = ([], { st with cache := st.cache }) := by
        simp only [handleBaseCase, hc]
        rw [if_pos (by simp [hin])]
        split
        · rfl
        · rename_i hany
          exact absurd (by exact hdup) hany
      rw [heq]
      exact ⟨⟨hsol, hcache⟩, by simp⟩
    · have heq : handleBaseCase env target ast st = ([], { st with cache := st.cache }) := by
        simp only [handleBaseCase, hc]
        rw [if_neg (by simpa using hin)]
      rw [heq]
      exact ⟨⟨hsol, hcache⟩, by simp⟩

theorem unaryLoop_ok (cfg : SolverConfig) (target : ℚ) (N : ℕ)
    (recurse : ASTNode → SolverState → StepResult) (currentAst : ASTNode)
    (hrec : ∀ (op : UnaryOperator) (s : SolverState), RunInv target N s →
      RunInv target N (recurse (.unaryOp op currentAst) s).2.1 ∧
      ∀ e ∈ (recurse (.unaryOp op currentAst) s).1, EventOK cfg target e)
    (hlt : dcc currentAst.render < N) :
    ∀ (ops : List (UnaryOperator × Bool)) (st : SolverState), RunInv target N st →
      RunInv target N (unaryLoop cfg recurse currentAst ops st).2.1 ∧
      ∀ e ∈ (unaryLoop cfg recurse currentAst ops st).1, EventOK cfg target e := by
  intro ops
  induction ops with
  | nil =>
      intro st h
      simp only [unaryLoop]
      exact ⟨h, by simp⟩
  | cons p rest ih =>
      obtain ⟨op, enabled⟩ := p
      intro st h
      have hst1 : RunInv target N
          { st with cache := (evaluateWithCache currentAst st.cache).2 } :=
        ⟨h.1, evalWC_cacheInv target N currentAst st.cache st.solutions h.2 hlt⟩
      simp only [unaryLoop]
      split
      · exact ih st h
      · split
        · exact ⟨h, by simp⟩
        · split
          · exact ih _ hst1
          · split
            · exact ih _ hst1
            · obtain ⟨h1, h2⟩ := hrec op
                { st with cache := (evaluateWithCache currentAst st.cache).2 } hst1
              obtain ⟨h3, h4⟩ := ih _ h1
              refine ⟨h3, ?_⟩
              intro e he
              rcases List.mem_append.1 he with h' | h'
              exacts [h2 e h', h4 e h']

theorem binOpLoop_ok (cfg : SolverConfig) (target : ℚ) (N : ℕ)
    (recurse : ASTNode → SolverState → StepResult) (currentAst finalRhs : ASTNode)
    (hrec : ∀ (op : BinaryOperator) (s : SolverState), RunInv target N s →
      RunInv target N (recurse (.binaryOp currentAst op finalRhs) s).2.1 ∧
      ∀ e ∈ (recurse (.binaryOp currentAst op finalRhs) s).1, EventOK cfg target e)
    (hl : dcc currentAst.render < N) (hr : dcc finalRhs.render < N) :
    ∀ (ops : List (BinaryOperator × Bool)) (st : SolverState), RunInv target N st →
      RunInv target N (binOpLoop cfg recurse currentAst finalRhs ops st).2.1 ∧
      ∀ e ∈ (binOpLoop cfg recurse currentAst finalRhs ops st).1, EventOK cfg target e := by
  intro ops
  induction ops with
  | nil =>
      intro st h
      simp only [binOpLoop]
      exact ⟨h, by simp⟩
  | cons p rest ih =>
      obtain ⟨op, enabled⟩ := p
      intro st h
      have hst1 : RunInv target N
          { st with cache := (binOpSkip cfg op currentAst finalRhs st.cache).2 } :=
        ⟨h.1, binOpSkip_cacheInv cfg op currentAst finalRhs target N st.cache
          st.solutions h.2 hl hr⟩
      simp only [binOpLoop]
      split
      · exact ih st h
      · split
        · exact ⟨h, by simp⟩
        · split
          · exact ih _ hst1
          · obtain ⟨h1, h2⟩ := hrec op
              { st with cache := (binOpSkip cfg op currentAst finalRhs st.cache).2 } hst1
            obtain ⟨h3, h4⟩ := ih _ h1
            refine ⟨h3, ?_⟩
            intro e he
            rcases List.mem_append.1 he with h' | h'
            exacts [h2 e h', h4 e h']

theorem finalRhsLoop_ok (cfg : SolverConfig) (target : ℚ) (N : ℕ)
    (recurse : ASTNode → SolverState → StepResult) (currentAst : ASTNode)
    (hl : dcc currentAst.render < N) :
    ∀ (rhss : List ASTNode),
      (∀ rhs ∈ rhss, dcc rhs.render < N ∧
        ∀ (op : BinaryOperator) (s : SolverState), RunInv target N s →
          RunInv target N (recurse (.binaryOp currentAst op rhs) s).2.1 ∧
          ∀ e ∈ (recurse (.binaryOp currentAst op rhs) s).1, EventOK cfg target e) →
    ∀ st : SolverState, RunInv target N st →
      RunInv target N (finalRhsLoop cfg recurse currentAst rhss st).2.1 ∧
      ∀ e ∈ (finalRhsLoop cfg recurse currentAst rhss st).1, EventOK cfg target e := by
  intro rhss
  induction rhss with
  | nil =>
      intro _ st h
      simp only [finalRhsLoop]
      exact ⟨h, by simp⟩
  | cons rhs rest ih =>
      intro hfacts st h
      obtain ⟨hrlt, hrecr⟩ := hfacts rhs (List.mem_cons_self _ _)
      simp only [finalRhsLoop]
      split
      · exact ⟨h, by simp⟩
      · obtain ⟨h1, h2⟩ := binOpLoop_ok cfg target N recurse currentAst rhs hrecr hl hrlt
          (binaryOperatorList cfg) st h
        split
        · exact ⟨h1, h2⟩
        · obtain ⟨h3, h4⟩ := ih (fun r hr => hfacts r (List.mem_cons_of_mem _ hr)) _ h1
          refine ⟨h3, ?_⟩
          intro e he
          rcases List.mem_append.1 he with h' | h'
          exacts [h2 e h', h4 e h']

theorem rhsInfoLoop_ok (cfg : SolverConfig) (target : ℚ) (N : ℕ)
    (recurse : ASTNode → List ℕ → SolverState → StepResult)
    (currentAst : ASTNode) (remaining : List ℕ)
    (hrec : RecOK cfg target N recurse)
    (hsum : dcc currentAst.render + dlen remaining = N)
    (hpa : 0 < dcc currentAst.render) :
    ∀ (infos : List (ASTNode × ℕ)),
      (∀ p ∈ infos, dcc (p.1).render + dlen (remaining.drop p.2) = dlen remaining ∧
        0 < dcc (p.1).render) →
    ∀ st : SolverState, RunInv target N st →
      RunInv target N (rhsInfoLoop cfg recurse currentAst remaining infos st).2.1 ∧
      ∀ e ∈ (rhsInfoLoop cfg recurse currentAst remaining infos st).1,
        EventOK cfg target e := by
  intro infos
  induction infos with
  | nil =>
      intro _ st h
      simp only [rhsInfoLoop]
      exact ⟨h, by simp⟩
  | cons p rest ih =>
      obtain ⟨baseRhs, consumed⟩ := p
      intro hinfos st h
      obtain ⟨hbsum0, hbpos0⟩ := hinfos (baseRhs, consumed) (List.mem_cons_self _ _)
      have hbsum : dcc baseRhs.render + dlen (remaining.drop consumed) = dlen remaining :=
        hbsum0
      have hbpos : 0 < dcc baseRhs.render := hbpos0
      have hblt : dcc baseRhs.render < N := by omega
      have hst1 : RunInv target N
          { st with cache := (rhsUnaryCollect cfg baseRhs (unaryOperatorList cfg) st.cache).2 } :=
        ⟨h.1, rhsUnaryCollect_cacheInv cfg baseRhs target N (unaryOperatorList cfg)
          st.cache st.solutions h.2 hblt⟩
      have hfacts : ∀ rhs ∈ baseRhs ::
          (rhsUnaryCollect cfg baseRhs (unaryOperatorList cfg) st.cache).1,
          dcc rhs.render < N ∧
          ∀ (op : BinaryOperator) (s : SolverState), RunInv target N s →
            RunInv target N
              (recurse (.binaryOp currentAst op rhs) (remaining.drop consumed) s).2.1 ∧
            ∀ e ∈ (recurse (.binaryOp currentAst op rhs) (remaining.drop consumed) s).1,
              EventOK cfg target e := by
        intro rhs hmem
        have hdr : dcc rhs.render = dcc baseRhs.render := by
          rcases List.mem_cons.1 hmem with h1 | h1
          · rw [h1]
          · obtain ⟨u, rfl⟩ :=
              rhsUnaryCollect_mem cfg baseRhs (unaryOperatorList cfg) st.cache rhs h1
            exact dcc_render_unary u baseRhs
        refine ⟨by omega, ?_⟩
        intro op s hs
        exact hrec (.binaryOp currentAst op rhs) (remaining.drop consumed) s
          (by rw [dcc_render_binop, hdr]; omega)
          (by rw [dcc_render_binop]; omega) hs
      simp only [rhsInfoLoop]
      split
      · exact ⟨h, by simp⟩
      · obtain ⟨h1, h2⟩ := finalRhsLoop_ok cfg target N
          (fun a s => recurse a (remaining.drop consumed) s) currentAst (by omega)
          (baseRhs :: (rhsUnaryCollect cfg baseRhs (unaryOperatorList cfg) st.cache).1)
          hfacts _ hst1
        split
        · exact ⟨h1, h2⟩
        · obtain ⟨h3, h4⟩ := ih (fun q hq => hinfos q (List.mem_cons_of_mem _ hq)) _ h1
          refine ⟨h3, ?_⟩
          intro e he
          rcases List.mem_append.1 he with h' | h'
          exacts [h2 e h', h4 e h']

theorem progressReport_EventOK (cfg : SolverConfig) (target : ℚ) (a : ℕ) (d : ℚ) :
    EventOK cfg target (progressReportOf cfg a d) := by
  refine ⟨by simp [progressReportOf], ?_, ?_⟩
  · intro h
    simp [progressReportOf] at h
  · intro _
    exact ⟨a, d, rfl⟩

theorem findRec_ok (env : SolverEnv) (target : ℚ) (N : ℕ) :
    ∀ (fuel : ℕ) (ast : ASTNode) (rem : List ℕ) (st : SolverState),
      dcc ast.render + dlen rem = N → 0 < dcc ast.render → RunInv target N st →
      RunInv target N (findCombinationsRecursive env target fuel ast rem st).2.1 ∧
      ∀ e ∈ (findCombinationsRecursive env target fuel ast rem st).1,
        EventOK env.config target e := by
  intro fuel
  induction fuel with
  | zero =>
      intro ast rem st hb hp h
      simp only [findCombinationsRecursive]
      split
      · exact ⟨h, by simp⟩
      · exact ⟨h, by simp⟩
  | succ fuel ih =>
      intro ast rem st hb hp h
      cases rem with
      | nil =>
          have hN : dcc ast.render = N := by
            have h0 : dlen ([] : List ℕ) = 0 := rfl
            omega
          simp only [findCombinationsRecursive, createProgressReport]
          split
          · exact ⟨h, by simp⟩
          · split
            · exact ⟨h, by simp⟩
            · split
              · exact ⟨h, by simp⟩
              · split
                · constructor
                  · exact (handleBaseCase_ok env target N ast _ (by exact h) hN).1
                  · intro e he
                    rcases List.mem_append.1 he with h2 | h2
                    · simp only [List.mem_singleton] at h2
                      subst h2
                      exact progressReport_EventOK env.config target _ _
                    · exact (handleBaseCase_ok env target N ast _ (by exact h) hN).2 e h2
                · constructor
                  · exact (handleBaseCase_ok env target N ast _ (by exact h) hN).1
                  · intro e he
                    rcases List.mem_append.1 he with h2 | h2
                    · simp at h2
                    · exact (handleBaseCase_ok env target N ast _ (by exact h) hN).2 e h2
      | cons r rs =>
          have hlt : dcc ast.render < N := by
            have h0 : 0 < dlen (r :: rs) := dlen_pos _ (by simp)
            omega
          have hrecU : ∀ (op : UnaryOperator) (s : SolverState), RunInv target N s →
              RunInv target N
                (findCombinationsRecursive env target fuel (.unaryOp op ast) (r :: rs) s).2.1 ∧
              ∀ e ∈ (findCombinationsRecursive env target fuel (.unaryOp op ast) (r :: rs) s).1,
                EventOK env.config target e := by
            intro op s hs
            exact ih (.unaryOp op ast) (r :: rs) s (by rw [dcc_render_unary]; omega)
              (by rw [dcc_render_unary]; omega) hs
          have hrecR : RecOK env.config target N
              (fun a rem2 s => findCombinationsRecursive env target fuel a rem2 s) :=
            fun a rem2 s h1 h2 hs => ih a rem2 s h1 h2 hs
          simp only [findCombinationsRecursive, createProgressReport]
          split
          · exact ⟨h, by simp⟩
          · split
            · exact ⟨h, by simp⟩
            · split
              · exact ⟨h, by simp⟩
              · split
                · split
                  · constructor
                    · exact (unaryLoop_ok env.config target N _ ast hrecU hlt _ _ (by exact h)).1
                    · intro e he
                      rcases List.mem_append.1 he with h2 | h2
                      · simp only [List.mem_singleton] at h2
                        subst h2
                        exact progressReport_EventOK env.config target _ _
                      · exact (unaryLoop_ok env.config target N _ ast hrecU hlt _ _ (by exact h)).2 e h2
                  · constructor
                    · exact (rhsInfoLoop_ok env.config target N _ ast (r :: rs) hrecR hb hp _
                        (possibleRhsInfos_spec env.config (r :: rs)) _
                        ((unaryLoop_ok env.config target N _ ast hrecU hlt _ _ (by exact h)).1)).1
                    · intro e he
                      rcases List.mem_append.1 he with h2 | h2
                      · rcases List.mem_append.1 h2 with h3 | h3
                        · simp only [List.mem_singleton] at h3
                          subst h3
                          exact progressReport_EventOK env.config target _ _
                        · exact (unaryLoop_ok env.config target N _ ast hrecU hlt _ _ (by exact h)).2 e h3
                      · exact (rhsInfoLoop_ok env.config target N _ ast (r :: rs) hrecR hb hp _
                          (possibleRhsInfos_spec env.config (r :: rs)) _
                          ((unaryLoop_ok env.config target N _ ast hrecU hlt _ _ (by exact h)).1)).2 e h2
                · split
                  · constructor
                    · exact (unaryLoop_ok env.config target N _ ast hrecU hlt _ _ (by exact h)).1
                    · intro e he
                      rcases List.mem_append.1 he with h2 | h2
                      · simp at h2
                      · exact (unaryLoop_ok env.config target N _ ast hrecU hlt _ _ (by exact h)).2 e h2
                  · constructor
                    · exact (rhsInfoLoop_ok env.config target N _ ast (r :: rs) hrecR hb hp _
                        (possibleRhsInfos_spec env.config (r :: rs)) _
                        ((unaryLoop_ok env.config target N _ ast hrecU hlt _ _ (by exact h)).1)).1
                    · intro e he
                      rcases List.mem_append.1 he with h2 | h2
                      · rcases List.mem_append.1 h2 with h3 | h3
                        · simp at h3
                        · exact (unaryLoop_ok env.config target N _ ast hrecU hlt _ _ (by exact h)).2 e h3
                      · exact (rhsInfoLoop_ok env.config target N _ ast (r :: rs) hrecR hb hp _
                          (possibleRhsInfos_spec env.config (r :: rs)) _
                          ((unaryLoop_ok env.config target N _ ast hrecU hlt _ _ (by exact h)).1)).2 e h2

theorem solveLoop_ok (env : SolverEnv) (target : ℚ) (numbers : List ℕ) :
    ∀ (paths : List (ASTNode × ℕ)) (st : SolverState),
      (∀ p ∈ paths, dcc (p.1).render + dlen (numbers.drop p.2) = dlen numbers ∧
        0 < dcc (p.1).render) →
      RunInv target (dlen numbers) st →
      RunInv target (dlen numbers) (solveLoop env target numbers paths st).2.1 ∧
      ∀ e ∈ (solveLoop env target numbers paths st).1, EventOK env.config target e := by
  intro paths
  induction paths with
  | nil =>
      intro st _ h
      simp only [solveLoop]
      exact ⟨h, by simp⟩
  | cons p rest ih =>
      obtain ⟨ast, consumed⟩ := p
      intro st hpaths h
      obtain ⟨hb, hp⟩ := hpaths (ast, consumed) (List.mem_cons_self _ _)
      have htail := fun q hq => hpaths q (List.mem_cons_of_mem _ hq)
      simp only [solveLoop]
      split
      · exact ⟨h, by simp⟩
      · split
        · exact ⟨h, by simp⟩
        · split
          · exact ⟨h, by simp⟩
          · split
            · exact findRec_ok env target (dlen numbers) env.config.maxDepth ast
                (numbers.drop consumed) _ hb hp (by exact h)
            · constructor
              · exact (ih _ htail ((findRec_ok env target (dlen numbers) env.config.maxDepth
                  ast (numbers.drop consumed) _ hb hp (by exact h)).1)).1
              · intro e he
                rcases List.mem_append.1 he with h2 | h2
                · exact (findRec_ok env target (dlen numbers) env.config.maxDepth ast
                    (numbers.drop consumed) _ hb hp (by exact h)).2 e h2
                · exact (ih _ htail ((findRec_ok env target (dlen numbers) env.config.maxDepth
                    ast (numbers.drop consumed) _ hb hp (by exact h)).1)).2 e h2

/-- Structure of a full `solve` run: the events are a complete-free prefix
satisfying `EventOK`, followed by exactly one terminal `complete` event,
and the final state's stored solutions have pairwise-distinct renderings. -/
theorem solve_ok (env : SolverEnv) (numbers : List ℕ) (target : ℚ) :
    (∃ evs c, (solve env numbers target).1 = evs ++ [c] ∧ c.type = .complete ∧
      ∀ e ∈ evs, EventOK env.config target e) ∧
    SolInv (solve env numbers target).2.2 := by
  cases numbers with
  | nil =>
      refine ⟨⟨[], ⟨.complete, 0, none, 0, 1, qSub (env.times 1) (env.times 0)⟩,
        ?_, rfl, by simp⟩, ?_⟩
      · simp only [List.nil_append]
        rfl
      · simp [solve, SolInv, initialState, stNow, incYields]
  | cons n ns =>
      simp only [solve]
      have hinv : RunInv target (dlen (n :: ns)) (initialState : SolverState) :=
        ⟨by simp [SolInv, initialState], fun p hp => absurd hp (List.not_mem_nil p)⟩
      constructor
      · refine ⟨(solveLoop env target (n :: ns)
          (initialAstCreationPaths env.config (n :: ns))
          { (stNow env initialState).2 with startTime := (stNow env initialState).1 }).1,
          _, rfl, rfl, ?_⟩
        intro e he
        exact (solveLoop_ok env target (n :: ns) _ _
          (initialAstCreationPaths_spec env.config (n :: ns)) (by exact hinv)).2 e he
      · exact (solveLoop_ok env target (n :: ns) _ _
          (initialAstCreationPaths_spec env.config (n :: ns)) (by exact hinv)).1.1

/-- C1. Every `solution` event emitted during a search invocation
carries an expression for the search's target whose raw evaluation
(`ASTNode.evaluate`, no cache involved) succeeds and yields a value within
`1e-9` of the target. -/
theorem claim1_solution_events_within_tolerance (env : SolverEnv)
    (numbers : List ℕ) (target : ℚ) (e : SolverReport)
    (he : e ∈ (solve env numbers target).1) (ht : e.type = .solution) :
    ∃ exp, e.currentExpression = some exp ∧ exp.target = target ∧
      ∃ v : ℚ, evaluate exp.left = .ok (.num v) ∧ |v - target| < 1 / 10 ^ 9 := by
  obtain ⟨⟨evs, c, heq, hc, hok⟩, -⟩ := solve_ok env numbers target
  rw [heq] at he
  rcases List.mem_append.1 he with h2 | h2
  · obtain ⟨-, hsol, -⟩ := hok e h2
    obtain ⟨exp, h3, h4, v, h5, h6⟩ := hsol ht
    exact ⟨exp, h3, h4, v, h5, by rwa [qAbs_eq, qSub_eq, eps9_eq] at h6⟩
  · simp only [List.mem_singleton] at h2
    subst h2
    rw [hc] at ht
    simp at ht

/-- C1 witness: the run `solve defaultEnv [1] 1` emits the concrete
solution event `solutionEventW`, and the theorem applies to it. -/
theorem claim1_witness :
    (solutionEventW ∈ (solve defaultEnv [1] 1).1 ∧ solutionEventW.type = .solution) ∧
    (∃ exp, solutionEventW.currentExpression = some exp ∧ exp.target = 1 ∧
      ∃ v : ℚ, evaluate exp.left = .ok (.num v) ∧ |v - 1| < 1 / 10 ^ 9) :=
  ⟨⟨by decide, by decide⟩,
    claim1_solution_events_within_tolerance defaultEnv [1] 1 solutionEventW
      (by decide) (by decide)⟩

/-- C3. A candidate solution is stored only when no already-stored
solution has the same canonical rendering, so at the end of any search
invocation the final solutions list has pairwise-distinct renderings. -/
theorem claim3_no_duplicate_renderings (env : SolverEnv) (numbers : List ℕ)
    (target : ℚ) :
    (((solve env numbers target).2.2.solutions).map ExpressionNode.render).Nodup :=
  (solve_ok env numbers target).2

/-- C4. Every `solve` run's event stream consists of a prefix with no
`complete` event followed by exactly one `complete` event, whatever the
configuration, clock behaviour and cancellation timing. -/
theorem claim4_exactly_one_complete_event (env : SolverEnv) (numbers : List ℕ)
    (target : ℚ) :
    ∃ evs c, (solve env numbers target).1 = evs ++ [c] ∧ c.type = .complete ∧
      ∀ e ∈ evs, e.type ≠ .complete := by
  obtain ⟨⟨evs, c, heq, hc, hok⟩, -⟩ := solve_ok env numbers target
  exact ⟨evs, c, heq, hc, fun e he => (hok e he).1⟩

theorem calculateProgress_le_one (cfg : SolverConfig) (a : ℕ) (d : ℚ) :
    calculateProgress cfg a d ≤ 1 := by
  unfold calculateProgress
  split
  · rw [qMin_eq]
    exact min_le_right _ _
  · rw [qMin_eq]
    exact min_le_right _ _

/-- C9. Every emitted `progress` event's fraction is
`min(attempts/maxAttempts, elapsed/timeout, 1)` (time-only when
`maxAttempts` is zero), and its ETA is `elapsed * (1/progress - 1)`,
except that it equals the configured timeout when the fraction is below
`1e-9`. -/
theorem claim9_progress_event_formulas (env : SolverEnv) (numbers : List ℕ)
    (target : ℚ) (e : SolverReport) (he : e ∈ (solve env numbers target).1)
    (ht : e.type = .progress) (hd : 0 ≤ e.duration)
    (htime : 0 < env.config.timeout) :
    (env.config.maxAttempts ≠ 0 →
      e.progress = min (min ((e.attempts : ℚ) / (env.config.maxAttempts : ℚ))
        (e.duration / env.config.timeout)) 1)
    ∧ (env.config.maxAttempts = 0 →
      e.progress = min (e.duration / env.config.timeout) 1)
    ∧ e.eta = (if e.progress < 1 / 10 ^ 9 then env.config.timeout
        else e.duration * (1 / e.progress - 1)) := by
  obtain ⟨⟨evs, c, heq, hc, hok⟩, -⟩ := solve_ok env numbers target
  rw [heq] at he
  rcases List.mem_append.1 he with h2 | h2
  swap
  · simp only [List.mem_singleton] at h2
    subst h2
    rw [hc] at ht
    simp at ht
  obtain ⟨-, -, hprog⟩ := hok e h2
  obtain ⟨a, d, hpd⟩ := hprog ht
  subst hpd
  simp only [progressReportOf] at hd ⊢
  have hple : calculateProgress env.config a d ≤ 1 := calculateProgress_le_one env.config a d
  refine ⟨?_, ?_, ?_⟩
  · intro hma
    unfold calculateProgress
    rw [if_neg hma, qMin_eq, qMin_eq, qDiv_eq, qDiv_eq, qOfNat_eq, qOfNat_eq]
  · intro hma
    unfold calculateProgress
    rw [if_pos hma, qMin_eq, qDiv_eq]
  · unfold calculateETA
    rw [eps9_eq]
    split
    · rw [if_pos (by assumption)]
    · rename_i hge
      rw [if_neg hge]
      have hp0 : 0 < calculateProgress env.config a d := by
        rw [not_lt] at hge
        calc (0 : ℚ) < 1 / 10 ^ 9 := by norm_num
        _ ≤ _ := hge
      rw [qMax_eq, qSub_eq, qDiv_eq]
      have h1 : d ≤ d / calculateProgress env.config a d := by
        rw [le_div_iff₀ hp0]
        exact mul_le_of_le_one_right hd hple
      rw [max_eq_right (sub_nonneg.2 h1), mul_sub, mul_one, mul_one_div]

/-- C9 witness: the run `solve tickingEnv [1] 1` emits the concrete
progress event `progressEventW`, and the theorem applies to it. -/
theorem claim9_witness :
    (progressEventW ∈ (solve tickingEnv [1] 1).1 ∧ progressEventW.type = .progress ∧
      0 ≤ progressEventW.duration ∧ 0 < tickingEnv.config.timeout) ∧
    ((tickingEnv.config.maxAttempts ≠ 0 →
      progressEventW.progress =
        min (min ((progressEventW.attempts : ℚ) / (tickingEnv.config.maxAttempts : ℚ))
          (progressEventW.duration / tickingEnv.config.timeout)) 1)
    ∧ (tickingEnv.config.maxAttempts = 0 →
      progressEventW.progress = min (progressEventW.duration / tickingEnv.config.timeout) 1)
    ∧ progressEventW.eta =
        (if progressEventW.progress < 1 / 10 ^ 9 then tickingEnv.config.timeout
          else progressEventW.duration * (1 / progressEventW.progress - 1))) :=
  ⟨⟨by decide, by decide, by decide, by decide⟩,
    claim9_progress_event_formulas tickingEnv [1] 1 progressEventW
      (by decide) (by decide) (by decide) (by decide)⟩

/-- C10. `solve` on an empty digit sequence yields exactly one event —
a `complete` event with zero attempts, progress one and eta zero — and a
result with `found = false`, zero attempts and the sentinel expression
wrapping the number `0`. -/
theorem claim10_empty_digits (env : SolverEnv) (target : ℚ) :
    (solve env [] target).1 =
      [⟨.complete, 0, none, 0, 1, qSub (env.times 1) (env.times 0)⟩] ∧
    (solve env [] target).2.1 =
      ⟨⟨.number (.num 0), target⟩, 0, qSub (env.times 1) (env.times 0), false⟩ :=
  ⟨rfl, rfl⟩

/-- C5. Scenario B: digits `[1,2,3]`, target `123`, concatenation
enabled and every operator family disabled — the search finds exactly the
concatenation node `123` as its only solution and returns `found = true`. -/
theorem claim5_concatenation_only_scenario :
    (solve scenarioBEnv [1, 2, 3] 123).2.1.found = true ∧
    (solve scenarioBEnv [1, 2, 3] 123).2.1.expression = ⟨.concat [1, 2, 3], 123⟩ ∧
    (solve scenarioBEnv [1, 2, 3] 123).2.2.solutions = [⟨.concat [1, 2, 3], 123⟩] :=
  ⟨by decide, by decide, by decide⟩

/-- C6. Factorial evaluation: for an operand evaluating to the finite
value `q`, evaluation fails with the factorial-domain error when `q` is
negative or not an integer; otherwise it fails with the factorial-overflow
error when `q` exceeds `170`; otherwise it returns the product
`1 * 2 * ... * q` (`Nat.factorial`); in particular the factorial of `0`
and of `1` both equal `1`. -/
theorem claim6_factorial_evaluation (operand : ASTNode) (q : ℚ)
    (h : evaluate operand = .ok (.num q)) :
    ((q < 0 ∨ q.den ≠ 1) →
      evaluate (.unaryOp .factorial operand) = .error .factorialDomain)
    ∧ (q.den = 1 → 0 ≤ q → 170 < q →
      evaluate (.unaryOp .factorial operand) = .error .factorialOverflow)
    ∧ (q.den = 1 → 0 ≤ q → q ≤ 170 →
      evaluate (.unaryOp .factorial operand) = .ok (.num (Nat.factorial q.num.toNat : ℚ)))
    ∧ evaluate (.unaryOp .factorial (.number (.num 0))) = .ok (.num 1)
    ∧ evaluate (.unaryOp .factorial (.number (.num 1))) = .ok (.num 1) := by
  have hev : evaluate (.unaryOp .factorial operand) =
      (if jsLt (.num q) (.num 0) || !jsIsInteger (.num q) then .error .factorialDomain
       else if jsLt (.num 170) (.num q) then .error .factorialOverflow
       else .ok (.num (factorialFn q.num.toNat))) := by
    simp only [evaluate, h]
    rfl
  refine ⟨?_, ?_, ?_, by decide, by decide⟩
  · intro hq
    rw [hev, if_pos]
    simp only [jsLt, jsIsInteger, Bool.or_eq_true, decide_eq_true_eq, Bool.not_eq_true]
    rcases hq with hq | hq
    · exact Or.inl hq
    · exact Or.inr (by simpa using hq)
  · intro h1 h2 h3
    rw [hev, if_neg, if_pos]
    · simpa [jsLt] using h3
    · simp [jsLt, jsIsInteger, h1, not_lt.2 h2]
  · intro h1 h2 h3
    rw [hev, if_neg, if_neg, factorialFn_eq]
    · simpa [jsLt] using not_lt.2 h3
    · simp [jsLt, jsIsInteger, h1, not_lt.2 h2]

/-- C6 witness: the theorem applied to the operand `5`, whose
factorial evaluates to `120`. -/
theorem claim6_witness :
    evaluate (.unaryOp .factorial (.number (.num 5))) = .ok (.num 120) := by
  have h := (claim6_factorial_evaluation (.number (.num 5)) 5 rfl).2.2.1
    (by decide) (by decide) (by decide)
  rw [h]
  decide

/-- C7 counterexample: the claim says a division or modulo node whose
divisor is within epsilon of zero always fails, but a divisor of `1e-13`
(inside the solver's `1e-12` epsilon, yet nonzero) evaluates successfully:
the division returns `1e13` and the modulo returns `0`, with no error. -/
theorem claim7_counterexample :
    |(tinyDivisor : ℚ) - 0| < 1 / 10 ^ 12 ∧
    evaluate (.binaryOp (.number (.num 1)) .div (.number (.num tinyDivisor))) =
      .ok (.num 10000000000000) ∧
    evaluate (.binaryOp (.number (.num 1)) .mod (.number (.num tinyDivisor))) =
      .ok (.num 0) := by
  refine ⟨?_, by decide, by decide⟩
  rw [tinyDivisor, Rat.mkRat_eq_div, sub_zero, abs_of_pos (by norm_num)]
  norm_num

/-- C7 (amended). Evaluating a division or modulo node fails (with the
division-by-zero or modulo-by-zero error) exactly in the case the code
tests: a divisor that evaluates to the number `0` strictly; in that case
no `Infinity`/`NaN` is produced.  Divisors merely within epsilon of zero
evaluate successfully (see the counterexample); the solver instead prunes
such candidates before ever building the node. -/
theorem claim7_division_modulo_by_zero (l r : ASTNode) (lv : JSNumber)
    (hl : evaluate l = .ok lv) (hr : evaluate r = .ok (.num 0)) :
    evaluate (.binaryOp l .div r) = .error .divisionByZero ∧
    evaluate (.binaryOp l .mod r) = .error .moduloByZero := by
  constructor
  · simp only [evaluate, hl, hr]
    rfl
  · simp only [evaluate, hl, hr]
    rfl

/-- C7 witness: `1 / 0` and `1 % 0`. -/
theorem claim7_witness :
    evaluate (.binaryOp (.number (.num 1)) .div (.number (.num 0))) =
      .error .divisionByZero ∧
    evaluate (.binaryOp (.number (.num 1)) .mod (.number (.num 0))) =
      .error .moduloByZero :=
  claim7_division_modulo_by_zero _ _ (.num 1) rfl rfl

/-- C8 counterexample: the claim says every node evaluation either
returns a finite number or fails explicitly, never silently returning
`NaN`; but evaluating `(-1) ^ (1 / 2)` (negative base, fractional
exponent) succeeds and returns `NaN`. -/
theorem claim8_counterexample :
    evaluate negBaseFractionalPow = .ok .nan := by decide

/-- C8 (amended). Raw `ASTNode.evaluate` can silently return a
non-finite value, but the engine-side evaluator `evaluateWithCache`
rejects every such result: on a cache miss, whenever the underlying
evaluation yields a non-finite value the memoized evaluation fails with
the explicit invalid-result error. -/
theorem claim8_no_silent_nonfinite (node : ASTNode)
    (cache : List (String × ℚ)) (v : JSNumber)
    (hmiss : cacheGet cache node.render = none)
    (hev : evaluate node = .ok v) (hnf : jsIsFinite v = false) :
    (evaluateWithCache node cache).1 = .error .invalidResult := by
  cases v with
  | num q => simp [jsIsFinite] at hnf
  | nan => simp [evaluateWithCache, hmiss, hev]
  | posInf => simp [evaluateWithCache, hmiss, hev]
  | negInf => simp [evaluateWithCache, hmiss, hev]

/-- C8 witness: the memoized evaluator rejects `(-1) ^ (1 / 2)` with
the invalid-result error. -/
theorem claim8_witness :
    (evaluateWithCache negBaseFractionalPow []).1 = .error .invalidResult :=
  claim8_no_silent_nonfinite negBaseFractionalPow [] .nan (by decide)
    (by decide) (by decide)

/-- C2 counterexample: the claim says the solutions list never holds more
than 10 expressions.  Running `solve` with digits `[0,0,0,0,0]`, target
`0`, concatenation and `+`, `-`, `*` enabled and `maxDepth 2`
(`capBreakEnv`) ends with 12 stored solutions: the 10-cap is only checked
between top-level creation paths, so a single path may push past it. -/
theorem claim2_counterexample :
    10 < (solve capBreakEnv [0, 0, 0, 0, 0] 0).2.2.solutions.length := by decide

/-- C2 (amended).  The 10-solution cap stops the search only between
top-level AST-creation paths: when at least 10 solutions are stored and
the attempt budget is not exhausted, the path loop of `solve` stops before
entering the next path, leaving state and events untouched. -/
theorem claim2_solution_cap (env : SolverEnv) (target : ℚ)
    (numbers : List ℕ) (ast : ASTNode) (consumed : ℕ)
    (rest : List (ASTNode × ℕ)) (st : SolverState)
    (h10 : 10 ≤ st.solutions.length)
    (hatt : st.attempts < env.config.maxAttempts) :
    solveLoop env target numbers ((ast, consumed) :: rest) st = ([], st, false) := by
  simp only [solveLoop]
  split
  · rfl
  · rw [if_pos ⟨h10, hatt⟩]

/-- C2 witness: the break applied to a concrete state holding ten
solutions and five attempts under the default configuration. -/
theorem claim2_witness :
    solveLoop defaultEnv 0 [0] [(.number (.num 0), 1)] tenSolutionState
      = ([], tenSolutionState, false) :=
  claim2_solution_cap defaultEnv 0 [0] (.number (.num 0)) 1 [] tenSolutionState
    (by decide) (by decide)

end Sum100
